import Mathlib

/-!
Verification development for the TDF-figlet font pipeline
(`tdfPacker.js`, bundle format v4.0, and the matching renderer).

The definitions below are shallow embeddings of the JavaScript source:
byte buffers become `List Nat` (each element a byte value), JS objects
become structures, and the imperative loops become structural or
well-founded recursion.  Functions keep the source names where Lean
allows it.
-/

namespace Tdf


/-! ### Cells and the padding pair

`CellPair` models the `{charByte, attrByte}` / `{char, attr}` objects of
the packer and renderer.  `PADDING_CHAR = 0x20`, `PADDING_ATTR = 0x00`. -/

structure CellPair where
  char : Nat
  attr : Nat
deriving DecidableEq, Repr

def padPair : CellPair := ⟨0x20, 0x00⟩

/-! ### RLE encoding (tdfPacker.js, `encodeGlyphToRLEStream`, step 2)

`RLE_ESCAPE_BYTE = 0xFF`, `RLE_MIN_RUN_LENGTH = 3`,
`RLE_MAX_ACTUAL_RUN = 258`.  The JS loop counts a maximal run of the
current index (capped at 258: the inner `while` requires
`runLength < RLE_MAX_ACTUAL_RUN`), then either escape-encodes it
(`currentIndex === RLE_ESCAPE_BYTE || runLength >= RLE_MIN_RUN_LENGTH`)
as the three bytes `0xFF, runLength - 3, currentIndex`, or emits the run
as literal bytes.  The stream is materialised with `Buffer.from`, which
stores each pushed number modulo 256 (a negative `runLength - 3`, only
reachable for index 255 with run `< 3`, wraps the same way); hence the
`% 256` on each emitted byte, with `(run + 253) % 256` computing the JS
value of `(runLength - 3) mod 256` for `1 ≤ run ≤ 258`. -/

/-- Number of leading elements of `l` equal to `v`, capped at `cap`
(models the bounded inner `while` of the encoder). -/
def countRun (v : Nat) : List Nat → Nat → Nat
  | _, 0 => 0
  | [], _ => 0
  | x :: xs, c + 1 => if x = v then countRun v xs c + 1 else 0

/-- The RLE encoder of `encodeGlyphToRLEStream` (tdfPacker.js lines
347-378), as a function on the flat index stream. -/
def rleEncode (l : List Nat) : List Nat :=
  match h : l with
  | [] => []
  | v :: rest =>
    let run := 1 + countRun v rest 257
    if v = 255 ∨ 3 ≤ run then
      255 :: (run + 253) % 256 :: v % 256 :: rleEncode (l.drop run)
    else
      (l.take run).map (· % 256) ++ rleEncode (l.drop run)
  termination_by l.length
  decreasing_by
    all_goals
      simp only [h, List.length_drop, List.length_cons]
      omega

/-! ### RLE decoding (renderer, `_decodeRLEStreamToPairIndices`)

The renderer decodes from the bundle `DataView` starting at the glyph's
stream offset; here the byte list is the suffix of the bundle starting
at that offset.  The JS `while (cellsDecoded < expectedNumCells)` loop
is modelled with the remaining cell count as the recursion measure: a
literal consumes one cell, an escape consumes `runLengthByte + 3` cells
but pushes at most the remaining count (`cellsDecoded + k <
expectedNumCells` guard), and running out of bytes (`currentOffset >=
byteLength`, or fewer than two bytes after an escape byte) breaks out of
the loop. -/

def rleDecodeAux : List Nat → Nat → List Nat
  | _, 0 => []
  | [], _ + 1 => []
  | b :: rest, r + 1 =>
    if b = 255 then
      match rest with
      | c :: v :: rest2 =>
        List.replicate (min (c + 3) (r + 1)) v ++ rleDecodeAux rest2 (r + 1 - (c + 3))
      | _ => []
    else
      b :: rleDecodeAux rest r

/-- Model of `_decodeRLEStreamToPairIndices` (renderer lines 311-365): decode,
then, when the decoded count differs from the expected count — rebuild
an array of exactly `expected` entries, padding missing cells with
index 0. -/
def _decodeRLEStreamToPairIndices (bytes : List Nat) (expected : Nat) : List Nat :=
  let d := rleDecodeAux bytes expected
  if d.length = expected then d
  else (List.range expected).map (fun i => d.getD i 0)

/-! ### Structure of the encoder's output (for the escape/literal claim)

`specMaximalRuns` follows the spec's words: the input is split into
maximal runs of one repeated index, each capped at 258 cells, and
`specRunBytes` is the spec's description of what each run emits —
an escape triple `0xFF, (runLength - 3) mod 256, index` when the run is
at least 3 long or the index is 255, and one literal byte per cell
otherwise.  They are compared against the source-translated
`rleEncode`. -/

def specMaximalRuns (l : List Nat) : List (Nat × Nat) :=
  match h : l with
  | [] => []
  | v :: rest => (v, 1 + countRun v rest 257) :: specMaximalRuns (l.drop (1 + countRun v rest 257))
  termination_by l.length
  decreasing_by
    simp only [h, List.length_drop, List.length_cons]
    omega

def specRunBytes (p : Nat × Nat) : List Nat :=
  if p.1 = 255 ∨ 3 ≤ p.2 then [255, (p.2 + 253) % 256, p.1 % 256]
  else List.replicate p.2 (p.1 % 256)

/-- Boolean scan of an RLE byte stream: every `0xFF` byte must begin an
escape triple (it consumes the following two bytes); any other byte is a
literal. -/
def noUnescaped255 : List Nat → Bool
  | [] => true
  | b :: rest =>
    if b = 255 then
      match rest with
      | _ :: _ :: rest2 => noUnescaped255 rest2
      | _ => false
    else noUnescaped255 rest

/-! ### Pair palette construction (tdfPacker.js, `buildLocalPairPalette`)

The JS function collects the unique `(char, attr)` pairs in a `Map`
(first-insertion order), adds the padding pair when the font requires
padding, sorts with the comparator
`(a, b) => a.char !== b.char ? a.char - b.char : a.attr - b.attr`,
and fails (returns null) when more than 254 pairs result.  The `Map` is
modelled by `dedupeAux` (append-if-absent) and the comparator sort by an
insertion sort over the corresponding total order — the comparator never
returns 0 on distinct deduplicated pairs, so any comparison sort yields
this unique sorted arrangement. -/

def pairLe (a b : CellPair) : Bool :=
  decide (a.char < b.char ∨ (a.char = b.char ∧ a.attr ≤ b.attr))

def insertSorted {α : Type} (le : α → α → Bool) (a : α) : List α → List α
  | [] => [a]
  | b :: l => if le a b then a :: b :: l else b :: insertSorted le a l

def insertionSort {α : Type} (le : α → α → Bool) : List α → List α
  | [] => []
  | a :: l => insertSorted le a (insertionSort le l)

def sortPairs (l : List CellPair) : List CellPair :=
  insertionSort pairLe l

def dedupeAux : List CellPair → List CellPair → List CellPair
  | acc, [] => acc
  | acc, c :: rest => if c ∈ acc then dedupeAux acc rest else dedupeAux (acc ++ [c]) rest

/-- All cells of all lines of all glyphs, in iteration order. -/
def fontCells (allGlyphLinesData : List (List (List CellPair))) : List CellPair :=
  allGlyphLinesData.flatMap (fun glyphLines => glyphLines.flatMap (fun line => line))

/-- The deduplicated pair set (the JS `Map`), with the padding pair
appended when the font requires padding and it is not already present. -/
def uniquePairs (allGlyphLinesData : List (List (List CellPair)))
    (fontRequiresPadding : Bool) : List CellPair :=
  let uniq := dedupeAux [] (fontCells allGlyphLinesData)
  if fontRequiresPadding ∧ padPair ∉ uniq then uniq ++ [padPair] else uniq

def buildLocalPairPalette (allGlyphLinesData : List (List (List CellPair)))
    (fontRequiresPadding : Bool) : Option (List CellPair) :=
  let pairPalette := sortPairs (uniquePairs allGlyphLinesData fontRequiresPadding)
  if 254 < pairPalette.length then none else some pairPalette

/-! ### Raw glyphs and the packing pipeline (tdfPacker.js `main`) -/

structure RawGlyph where
  declaredWidth : Nat
  lines : List (List CellPair)
deriving DecidableEq, Repr

/-- Source: `actualHeight = lines.length > 0 ? lines.length : 1`. -/
def actualHeight (g : RawGlyph) : Nat :=
  if 0 < g.lines.length then g.lines.length else 1

/-- Model of `pairToIndexMap.get` with the `pairIndex = 0` fallback the encoder
applies when the map has no entry (`typeof pairIndex === "undefined"`). -/
def lookupPairIndex (pairPalette : List CellPair) (p : CellPair) : Nat :=
  if pairPalette.indexOf p < pairPalette.length then pairPalette.indexOf p else 0

/-- Step 1 of `encodeGlyphToRLEStream`: the dense row-major
`declaredWidth × actualHeight` stream of palette indices, padding each
ragged cell with the padding pair's index. -/
def flatIndexStream (g : RawGlyph) (pairPalette : List CellPair) : List Nat :=
  (List.range (actualHeight g)).flatMap fun y =>
    (List.range g.declaredWidth).map fun x =>
      if x < (g.lines.getD y []).length then
        lookupPairIndex pairPalette ((g.lines.getD y []).getD x padPair)
      else
        lookupPairIndex pairPalette padPair

/-- Model of `encodeGlyphToRLEStream` (tdfPacker.js lines 307-379). -/
def encodeGlyphToRLEStream (g : RawGlyph) (pairPalette : List CellPair) : List Nat :=
  rleEncode (flatIndexStream g pairPalette)

structure EncodedGlyph where
  width : Nat
  height : Nat
  rleStream : List Nat
deriving DecidableEq, Repr

structure FontInput where
  uniqueKey : List Nat
  spacing : Nat
  glyphs : List (Nat × RawGlyph)
deriving DecidableEq, Repr

structure ProcessedFont where
  uniqueKey : List Nat
  spacing : Nat
  pairPalette : List CellPair
  encodedGlyphs : List (Nat × EncodedGlyph)
deriving DecidableEq, Repr

/-- The per-glyph raggedness test of `main` (tdfPacker.js lines 563-577):
a line shorter than the declared width, or an "empty" glyph with
positive declared dimensions. -/
def glyphNeedsPadding (g : RawGlyph) : Bool :=
  g.lines.any (fun line => decide (line.length < g.declaredWidth)) ||
    (g.lines.all (fun line => line.isEmpty) && decide (0 < g.declaredWidth)
      && decide (0 < actualHeight g))

def fontRequiresPaddingFlag (F : FontInput) : Bool :=
  F.glyphs.any (fun cg => glyphNeedsPadding cg.2)

/-- One iteration of `main`'s per-font loop (tdfPacker.js lines 553-626):
skip fonts with no glyphs, build the palette (skipping the font on
overflow), then RLE-encode every glyph, recording
`{width: declaredWidth, height: actualHeight, rleStream}`. -/
def processFont (F : FontInput) : Option ProcessedFont :=
  if F.glyphs.isEmpty then none
  else
    match buildLocalPairPalette (F.glyphs.map (fun cg => cg.2.lines))
        (fontRequiresPaddingFlag F) with
    | none => none
    | some pairPalette =>
      some ⟨F.uniqueKey, F.spacing, pairPalette,
        F.glyphs.map (fun cg =>
          (cg.1, ⟨cg.2.declaredWidth, actualHeight cg.2,
            encodeGlyphToRLEStream cg.2 pairPalette⟩))⟩

def processFonts (fonts : List FontInput) : List ProcessedFont :=
  fonts.filterMap processFont

/-! ### Decoder-side cell reconstruction (renderer,
`parseGlyphDataOnDemand` lines 441-453) -/

/-- Mapping decoded pair-palette indices back to cells: an out-of-range
index yields the fallback cell the source pushes
(`cellData.push(0x20, 0x07)` — space, light grey on black). -/
def mapIndicesToCells (pairPalette : List CellPair) : List Nat → List CellPair
  | [] => []
  | i :: rest =>
    (if pairPalette.length ≤ i then ⟨0x20, 0x07⟩ else pairPalette.getD i ⟨0x20, 0x07⟩)
      :: mapIndicesToCells pairPalette rest

/-- The cell-level composition of `parseGlyphDataOnDemand`: RLE-decode
`width * height` cells, then map each index through the palette. -/
def decodeGlyphCells (pairPalette : List CellPair) (bytes : List Nat)
    (width height : Nat) : List CellPair :=
  mapIndicesToCells pairPalette (_decodeRLEStreamToPairIndices bytes (width * height))

/-- The expected decoded grid, stated from the spec: row-major
`declaredWidth × actualHeight`, the original cell where the line had
data, and the padding pair where it did not. -/
def paddedGrid (g : RawGlyph) : List CellPair :=
  (List.range (actualHeight g)).flatMap fun y =>
    (List.range g.declaredWidth).map fun x => (g.lines.getD y []).getD x padPair

/-! ### Properties of the canonical pair order -/

/-- The proposition-level canonical order: character code ascending,
then attribute ascending. -/
def pairLeP (a b : CellPair) : Prop :=
  a.char < b.char ∨ (a.char = b.char ∧ a.attr ≤ b.attr)

/-! ### Bundle serialization (tdfPacker.js assembly functions)

Multi-byte integers are little-endian (`writeUInt16LE` / `writeUInt32LE`);
font keys are modelled as byte lists (the packer sanitizes them to ASCII
`[a-zA-Z0-9_.-]`), written NUL-terminated into the string pool.  `main`
sorts the processed fonts by `uniqueKey` (`localeCompare`, modelled as
the lexicographic order on the key bytes) before assembly. -/

def u16le (n : Nat) : List Nat := [n % 256, n / 256 % 256]

def u32le (n : Nat) : List Nat :=
  [n % 256, n / 256 % 256, n / 65536 % 256, n / 16777216 % 256]

/-- Lexicographic order on key byte lists (model of `localeCompare` for
the sanitized ASCII keys). -/
def keyLe : List Nat → List Nat → Bool
  | [], _ => true
  | _ :: _, [] => false
  | a :: as, b :: bs => if a < b then true else if b < a then false else keyLe as bs

def fontLe (a b : ProcessedFont) : Bool := keyLe a.uniqueKey b.uniqueKey

def sortFontsByKey (fonts : List ProcessedFont) : List ProcessedFont :=
  insertionSort fontLe fonts

def glyphEntryLe (a b : Nat × EncodedGlyph) : Bool := decide (a.1 ≤ b.1)

/-- The writer sorts the glyph entries by character code
(`sort((a, b) => a[0].charCodeAt(0) - b[0].charCodeAt(0))`). -/
def sortGlyphEntries (gs : List (Nat × EncodedGlyph)) : List (Nat × EncodedGlyph) :=
  insertionSort glyphEntryLe gs

/-- A GDT record: width (1 byte), height (1 byte), RLE stream. -/
def glyphRecordBytes (g : EncodedGlyph) : List Nat :=
  g.width % 256 :: g.height % 256 :: g.rleStream

/-- The glyph lookup table: per entry, character code (1 byte) and the
running relative offset into the GDT (2 bytes LE). -/
def gltBytes : List (Nat × EncodedGlyph) → Nat → List Nat
  | [], _ => []
  | (c, g) :: rest, off =>
    (c % 256 :: u16le off) ++ gltBytes rest (off + 2 + g.rleStream.length)

def gdtBytes (entries : List (Nat × EncodedGlyph)) : List Nat :=
  entries.flatMap (fun e => glyphRecordBytes e.2)

/-- One font's data block (`_buildFontDataPool` body): spacing, palette
size, palette entries (2 bytes each, canonical order), glyph count, GLT,
then the GDT records in the same order.  The JS writes the stored
`fontInfo.nPairs`, which `main` sets to `pairPalette.length`; the length
is used directly here. -/
def fontBlockBytes (f : ProcessedFont) : List Nat :=
  f.spacing % 256 :: f.pairPalette.length % 256 ::
    (f.pairPalette.flatMap (fun p => [p.char % 256, p.attr % 256])
      ++ ((sortGlyphEntries f.encodedGlyphs).length % 256
          :: (gltBytes (sortGlyphEntries f.encodedGlyphs) 0
              ++ gdtBytes (sortGlyphEntries f.encodedGlyphs))))

/-- Model of `_buildStringPoolAndIndexPlaceholders`: NUL-terminated keys in order. -/
def stringPoolBytes (fonts : List ProcessedFont) : List Nat :=
  fonts.flatMap (fun f => f.uniqueKey ++ [0])

/-- Model of `_finalizeFontIndexTable` with the offsets `main` accumulates:
8 bytes per font, key offset then data offset, both u32 LE. -/
def fontIndexTableBytes : List ProcessedFont → Nat → Nat → List Nat
  | [], _, _ => []
  | f :: rest, koff, doff =>
    u32le koff ++ u32le doff
      ++ fontIndexTableBytes rest (koff + f.uniqueKey.length + 1)
          (doff + (fontBlockBytes f).length)

/-- Model of `_buildBundleHeader`: magic "TDFB", version 4, font count, and the
three absolute section offsets. -/
def _buildBundleHeader (numFonts indexTableLength stringPoolLength : Nat) : List Nat :=
  [0x54, 0x44, 0x46, 0x42, 4] ++ u32le numFonts ++ u32le 21
    ++ u32le (21 + indexTableLength) ++ u32le (21 + indexTableLength + stringPoolLength)

/-- Model of `main`'s bundle assembly: sort fonts, build the sections, concatenate
header ++ index table ++ string pool ++ font data pool. -/
def buildBundle (processedFontsData : List ProcessedFont) : List Nat :=
  let sorted := sortFontsByKey processedFontsData
  let stringPool := stringPoolBytes sorted
  let fontDataPool := sorted.flatMap fontBlockBytes
  let indexTable := fontIndexTableBytes sorted 0 0
  _buildBundleHeader sorted.length indexTable.length stringPool.length
    ++ indexTable ++ stringPool ++ fontDataPool

/-! ### Bundle header parsing (renderer, `_parseBundleHeader`) -/

def readU32 (b : List Nat) (off : Nat) : Nat :=
  b.getD off 0 + 256 * b.getD (off + 1) 0 + 65536 * b.getD (off + 2) 0
    + 16777216 * b.getD (off + 3) 0

structure BundleHeaderInfo where
  version : Nat
  fontCount : Nat
  indexTableOffset : Nat
  stringPoolOffset : Nat
  fontDataPoolOffset : Nat
deriving DecidableEq, Repr

/-- Model of `_parseBundleHeader` (renderer lines 724-762): minimum length, magic
"TDFB", version check against `EXPECTED_BUNDLE_FORMAT_VERSION = 4`, then
bounds checks on the three section offsets and the index table extent.
These are the renderer's only hard-failure paths. -/
def _parseBundleHeader (b : List Nat) : Except String BundleHeaderInfo :=
  if b.length < 21 then .error "bundle too small for header"
  else if ¬(b.getD 0 0 = 0x54 ∧ b.getD 1 0 = 0x44 ∧ b.getD 2 0 = 0x46 ∧ b.getD 3 0 = 0x42)
  then .error "invalid magic"
  else if b.getD 4 0 ≠ 4 then .error "unsupported version"
  else
    let fontCount := readU32 b 5
    let indexTableOffset := readU32 b 9
    let stringPoolOffset := readU32 b 13
    let fontDataPoolOffset := readU32 b 17
    if b.length ≤ indexTableOffset ∨ b.length ≤ stringPoolOffset
        ∨ b.length ≤ fontDataPoolOffset
        ∨ b.length < indexTableOffset + fontCount * 8 then
      .error "invalid offsets in header"
    else
      .ok ⟨4, fontCount, indexTableOffset, stringPoolOffset, fontDataPoolOffset⟩

/-! ### Binary search over the glyph lookup table (renderer,
`_findGlyphOffsetInLookupTable` lines 278-303)

The GLT is modelled as the list of `(charCode, relativeOffset)` entries
the reader's 3-byte-per-entry accesses decode.  The JS loop keeps
`low`/`high` with `high = mid - 1` possibly reaching `-1`; here `hi1`
stands for `high + 1`, so the loop condition `low <= high` becomes
`low < hi1`, `mid = floor((low + high) / 2)` becomes
`(low + hi1 - 1) / 2`, and the updates `high = mid - 1` / `low = mid + 1`
become `hi1 = mid` / `low = mid + 1` — an exact reformulation in `Nat`.
The in-bundle bounds check on the entry read cannot fire for a table the
header declared (the abstract list access stands for the in-bounds
3-byte read). -/

def findGo (glt : List (Nat × Nat)) (charCode low hi1 : Nat) : Option Nat :=
  if h : low < hi1 then
    if (glt.getD ((low + hi1 - 1) / 2) (0, 0)).1 = charCode then
      some (glt.getD ((low + hi1 - 1) / 2) (0, 0)).2
    else if charCode < (glt.getD ((low + hi1 - 1) / 2) (0, 0)).1 then
      findGo glt charCode low ((low + hi1 - 1) / 2)
    else
      findGo glt charCode ((low + hi1 - 1) / 2 + 1) hi1
  else none
  termination_by hi1 - low
  decreasing_by
    all_goals omega

def _findGlyphOffsetInLookupTable (glt : List (Nat × Nat)) (charCode : Nat) : Option Nat :=
  findGo glt charCode 0 glt.length

/-! ### Text layout (renderer, `_getCharLayoutMetrics`,
`_calculateSingleLineLayout`, `tdfRenderer.calculateLayout`)

The layout code consults the font only through
`_getGlyphLayoutMetricsOnly` (per-character `{width, height}` in cells,
or absent); that lookup is abstracted as a function
`metrics : Nat → Option (Nat × Nat)` on character codes.  Text is the
list of character codes; `CharWidth = 8` and `CharHeight = 16` pixels
per cell; newline is code 10, space is code 32. -/

def CharWidth : Nat := 8

def CharHeight : Nat := 16

structure CharLayoutMetrics where
  widthPx : Nat
  heightPx : Nat
  isDefined : Bool
deriving DecidableEq, Repr

/-- Model of `_getCharLayoutMetrics` (renderer lines 475-504). -/
def _getCharLayoutMetrics (metrics : Nat → Option (Nat × Nat)) (charCode : Nat)
    (minSpaceWidthChars : Nat) : CharLayoutMetrics :=
  if charCode = 32 then
    match metrics 32 with
    | some (w, h) =>
      if 0 < w then ⟨w * CharWidth, max 1 h * CharHeight, true⟩
      else ⟨minSpaceWidthChars * CharWidth, CharHeight, true⟩
    | none => ⟨minSpaceWidthChars * CharWidth, CharHeight, true⟩
  else
    match metrics charCode with
    | some (w, h) => ⟨w * CharWidth, max 1 h * CharHeight, true⟩
    | none => ⟨0, CharHeight, false⟩

/-- The accumulation loop of `_calculateSingleLineLayout`:
`(lineWidthPx, maxLineHeightPx, glyphsContributingToSpacing)`.  The JS
loop runs left to right; sum, max and count are
order-insensitive, so the recursion accumulates from the right. -/
def lineAccum (metrics : Nat → Option (Nat × Nat)) (minSpaceWidthChars : Nat) :
    List Nat → Nat × Nat × Nat
  | [] => (0, 0, 0)
  | c :: rest =>
    let m := _getCharLayoutMetrics metrics c minSpaceWidthChars
    let acc := lineAccum metrics minSpaceWidthChars rest
    (m.widthPx + acc.1, max m.heightPx acc.2.1,
      (if 0 < m.widthPx ∨ c = 32 then 1 else 0) + acc.2.2)

/-- Model of `_calculateSingleLineLayout` (renderer lines 514-545). -/
def _calculateSingleLineLayout (metrics : Nat → Option (Nat × Nat))
    (fontSpacingChars : Nat) (textLine : List Nat) (minSpaceWidthChars : Nat) :
    Nat × Nat :=
  if textLine.isEmpty then (0, CharHeight)
  else
    let acc := lineAccum metrics minSpaceWidthChars textLine
    let lineWidthPx :=
      if 1 < acc.2.2 then acc.1 + (acc.2.2 - 1) * (fontSpacingChars * CharWidth)
      else acc.1
    (max lineWidthPx (if 0 < textLine.length then CharWidth else 0),
      max acc.2.1 CharHeight)

/-- Model of `text.split("\n")` on character codes. -/
def splitOnNewline : List Nat → List (List Nat)
  | [] => [[]]
  | c :: rest =>
    if c = 10 then [] :: splitOnNewline rest
    else
      match splitOnNewline rest with
      | l :: ls => (c :: l) :: ls
      | [] => [[c]]

/-- The per-line loop of `calculateLayout`: running max of line widths,
and total height with the extra gap added after every non-final line. -/
def layoutLines (metrics : Nat → Option (Nat × Nat))
    (fontSpacingChars minSpaceWidthChars additionalLineSpacingPx : Nat) :
    List (List Nat) → Nat × Nat
  | [] => (0, 0)
  | [l] => _calculateSingleLineLayout metrics fontSpacingChars l minSpaceWidthChars
  | l :: l2 :: rest =>
    let ll := _calculateSingleLineLayout metrics fontSpacingChars l minSpaceWidthChars
    let acc := layoutLines metrics fontSpacingChars minSpaceWidthChars
      additionalLineSpacingPx (l2 :: rest)
    (max ll.1 acc.1, ll.2 + additionalLineSpacingPx + acc.2)

/-- Model of `tdfRenderer.calculateLayout` (renderer lines 869-919), with the
initialization and font-lookup steps already resolved to the font's
spacing and metrics oracle.  Empty text short-circuits to the minimum
one-cell dimensions. -/
def calculateLayout (metrics : Nat → Option (Nat × Nat)) (fontSpacingChars : Nat)
    (text : List Nat) (minSpaceWidthChars additionalLineSpacingPx : Nat) : Nat × Nat :=
  if text.isEmpty then (CharWidth, CharHeight)
  else
    let acc := layoutLines metrics fontSpacingChars minSpaceWidthChars
      additionalLineSpacingPx (splitOnNewline text)
    (max acc.1 CharWidth, max acc.2 CharHeight)

/-! ### Spec-side layout formulas -/

/-- The line width exactly as the claim words it: the sum of per-character
pixel widths plus `(n - 1) × spacing`, where `n` counts the characters
that occupied any width. -/
def claimLineWidth (metrics : Nat → Option (Nat × Nat)) (fontSpacingChars : Nat)
    (textLine : List Nat) (minSpaceWidthChars : Nat) : Nat :=
  (textLine.map (fun c => (_getCharLayoutMetrics metrics c minSpaceWidthChars).widthPx)).sum
    + ((textLine.map (fun c =>
          (_getCharLayoutMetrics metrics c minSpaceWidthChars).widthPx)).countP
        (fun w => decide (0 < w)) - 1)
      * (fontSpacingChars * CharWidth)

/-- The amended line-width formula: `n` additionally counts zero-width
spaces, and a non-empty line's width is floored at one cell (8 px). -/
def amendedLineWidth (metrics : Nat → Option (Nat × Nat)) (fontSpacingChars : Nat)
    (textLine : List Nat) (minSpaceWidthChars : Nat) : Nat :=
  max ((textLine.map
          (fun c => (_getCharLayoutMetrics metrics c minSpaceWidthChars).widthPx)).sum
        + (textLine.countP (fun c =>
            decide (0 < (_getCharLayoutMetrics metrics c minSpaceWidthChars).widthPx)
              || decide (c = 32)) - 1)
          * (fontSpacingChars * CharWidth))
    (if textLine.isEmpty then 0 else CharWidth)

/-- Sum of per-line heights plus the gap once between consecutive lines. -/
def specTotalHeight (metrics : Nat → Option (Nat × Nat))
    (fontSpacingChars minSpaceWidthChars additionalLineSpacingPx : Nat)
    (text : List Nat) : Nat :=
  ((splitOnNewline text).map
      (fun l => (_calculateSingleLineLayout metrics fontSpacingChars l minSpaceWidthChars).2)).sum
    + additionalLineSpacingPx * ((splitOnNewline text).length - 1)

/-- A small concrete font for witnesses: one glyph for character 33,
declared width 2 with a single one-cell line (hence ragged). -/
def exGlyph : RawGlyph := ⟨2, [[⟨65, 7⟩]]⟩

def exFont : FontInput := ⟨[65], 0, [(33, exGlyph)]⟩

def exRec : ProcessedFont :=
  ⟨[65], 0, [⟨32, 0⟩, ⟨65, 7⟩],
    [(33, ⟨2, 1, encodeGlyphToRLEStream exGlyph [⟨32, 0⟩, ⟨65, 7⟩]⟩)]⟩

/-- A literal processed font whose stream bytes are given directly (so
the whole record is computable by `decide`). -/
def exRecB : ProcessedFont := ⟨[66], 1, [⟨32, 0⟩], [(33, ⟨1, 1, [0]⟩)]⟩

def exRecC : ProcessedFont := ⟨[67], 0, [⟨32, 0⟩, ⟨65, 7⟩], [(34, ⟨2, 1, [1, 0]⟩)]⟩

/-! ## Theorems -/

theorem countRun_le_cap (v : Nat) (l : List Nat) (cap : Nat) :
    countRun v l cap ≤ cap := by
  induction l generalizing cap with
  | nil => cases cap <;> simp [countRun]
  | cons x xs ih =>
    cases cap with
    | zero => simp [countRun]
    | succ c =>
      simp only [countRun]
      split
      · exact Nat.succ_le_succ (ih c)
      · exact Nat.zero_le _

theorem countRun_le_length (v : Nat) (l : List Nat) (cap : Nat) :
    countRun v l cap ≤ l.length := by
  induction l generalizing cap with
  | nil => cases cap <;> simp [countRun]
  | cons x xs ih =>
    cases cap with
    | zero => simp [countRun]
    | succ c =>
      simp only [countRun]
      split
      · simpa using Nat.succ_le_succ (ih c)
      · exact Nat.zero_le _

/-- The first `countRun v l cap` elements of `l` all equal `v`. -/
theorem countRun_take (v : Nat) (l : List Nat) (cap : Nat) :
    l.take (countRun v l cap) = List.replicate (countRun v l cap) v := by
  induction l generalizing cap with
  | nil => cases cap <;> simp [countRun]
  | cons x xs ih =>
    cases cap with
    | zero => simp [countRun]
    | succ c =>
      simp only [countRun]
      split
      · next h => simp [List.replicate_succ, h, ih c]
      · simp

example : rleEncode [5, 5, 5, 5, 2, 1, 1] = [255, 1, 5, 2, 1, 1] := by
  simp [rleEncode, countRun]

example : rleDecodeAux [255, 1, 5, 2, 1, 1] 7 = [5, 5, 5, 5, 2, 1, 1] := by decide

example : _decodeRLEStreamToPairIndices [255, 1, 5, 2] 7 = [5, 5, 5, 5, 2, 0, 0] := by decide

example : _decodeRLEStreamToPairIndices [7] 3 = [7, 0, 0] := by decide

/-! ### RLE round-trip -/

theorem rleEncode_nil : rleEncode [] = [] := by
  rw [rleEncode]

theorem rleEncode_cons (v : Nat) (rest : List Nat) :
    rleEncode (v :: rest) =
      if v = 255 ∨ 3 ≤ 1 + countRun v rest 257 then
        255 :: (1 + countRun v rest 257 + 253) % 256 :: v % 256 ::
          rleEncode ((v :: rest).drop (1 + countRun v rest 257))
      else
        ((v :: rest).take (1 + countRun v rest 257)).map (· % 256) ++
          rleEncode ((v :: rest).drop (1 + countRun v rest 257)) := by
  rw [rleEncode]

theorem rleDecodeAux_zero (bytes : List Nat) : rleDecodeAux bytes 0 = [] := by
  cases bytes <;> rfl

theorem rleDecodeAux_escape (c v : Nat) (rest2 : List Nat) (r : Nat) :
    rleDecodeAux (255 :: c :: v :: rest2) (r + 1) =
      List.replicate (min (c + 3) (r + 1)) v ++ rleDecodeAux rest2 (r + 1 - (c + 3)) := rfl

theorem rleDecodeAux_lit (b : Nat) (rest : List Nat) (r : Nat) (hb : b ≠ 255) :
    rleDecodeAux (b :: rest) (r + 1) = b :: rleDecodeAux rest r := by
  match rest with
  | [] =>
    rw [show rleDecodeAux [b] (r + 1)
        = if b = 255 then [] else b :: rleDecodeAux [] r from rfl, if_neg hb]
  | [c] =>
    rw [show rleDecodeAux [b, c] (r + 1)
        = if b = 255 then [] else b :: rleDecodeAux [c] r from rfl, if_neg hb]
  | c :: v :: rest2 =>
    rw [show rleDecodeAux (b :: c :: v :: rest2) (r + 1)
        = if b = 255 then
            List.replicate (min (c + 3) (r + 1)) v ++ rleDecodeAux rest2 (r + 1 - (c + 3))
          else b :: rleDecodeAux (c :: v :: rest2) r from rfl, if_neg hb]

/-- Decoding a block of literal bytes (all ≠ 255) consumes exactly one
cell per byte. -/
theorem rleDecodeAux_replicate_lit (v : Nat) (hv : v ≠ 255) (m : Nat) (tail : List Nat)
    (s : Nat) :
    rleDecodeAux (List.replicate m v ++ tail) (m + s) =
      List.replicate m v ++ rleDecodeAux tail s := by
  induction m with
  | zero => simp
  | succ m ihm =>
    rw [List.replicate_succ, List.cons_append]
    have hms : m + 1 + s = (m + s) + 1 := by omega
    rw [hms, rleDecodeAux_lit v _ _ hv, ihm]
    simp [List.replicate_succ]

theorem take_countRun_cons (v : Nat) (rest : List Nat) :
    (v :: rest).take (1 + countRun v rest 257) =
      List.replicate (1 + countRun v rest 257) v := by
  rw [Nat.add_comm 1 (countRun v rest 257)]
  simpa [List.replicate_succ] using countRun_take v rest 257

/-- Decoding the encoder's output — possibly followed by unrelated bundle
bytes — for exactly `l.length` cells recovers `l`, provided no input index
is the escape value 255 (palette indices are `< 255` by construction). -/
theorem rleDecodeAux_rleEncode_aux :
    ∀ (n : Nat) (l extra : List Nat), l.length ≤ n → (∀ x ∈ l, x < 255) →
      rleDecodeAux (rleEncode l ++ extra) l.length = l := by
  intro n
  induction n with
  | zero =>
    intro l extra hlen _
    have : l = [] := List.length_eq_zero.mp (Nat.le_zero.mp hlen)
    subst this
    simp [rleEncode_nil, rleDecodeAux]
  | succ n ih =>
    intro l extra hlen hmem
    match l with
    | [] => simp [rleEncode_nil, rleDecodeAux_zero]
    | v :: rest =>
      have hv : v < 255 := hmem v (by simp)
      have hcap : countRun v rest 257 ≤ 257 := countRun_le_cap v rest 257
      have hclen : countRun v rest 257 ≤ rest.length := countRun_le_length v rest 257
      have htake := take_countRun_cons v rest
      have hdropmem : ∀ x ∈ (v :: rest).drop (1 + countRun v rest 257), x < 255 :=
        fun x hx => hmem x (List.mem_of_mem_drop hx)
      have hdropn : ((v :: rest).drop (1 + countRun v rest 257)).length ≤ n := by
        simp at hlen ⊢
        omega
      have hsplit : List.replicate (1 + countRun v rest 257) v
          ++ (v :: rest).drop (1 + countRun v rest 257) = v :: rest := by
        conv_rhs => rw [← List.take_append_drop (1 + countRun v rest 257) (v :: rest)]
        rw [htake]
      rw [rleEncode_cons]
      by_cases hesc : v = 255 ∨ 3 ≤ 1 + countRun v rest 257
      · have h3 : 3 ≤ 1 + countRun v rest 257 := by
          rcases hesc with h | h
          · omega
          · exact h
        rw [if_pos hesc]
        rw [Nat.mod_eq_of_lt (show v < 256 by omega)]
        have hmod : (1 + countRun v rest 257 + 253) % 256 = 1 + countRun v rest 257 - 3 := by
          omega
        rw [hmod]
        simp only [List.cons_append, List.length_cons]
        rw [rleDecodeAux_escape]
        have hc3 : 1 + countRun v rest 257 - 3 + 3 = 1 + countRun v rest 257 := by omega
        rw [hc3]
        have hmin : min (1 + countRun v rest 257) (rest.length + 1)
            = 1 + countRun v rest 257 := by omega
        rw [hmin]
        have hrem : rest.length + 1 - (1 + countRun v rest 257)
            = ((v :: rest).drop (1 + countRun v rest 257)).length := by
          simp
        rw [hrem, ih _ extra hdropn hdropmem, hsplit]
      · rw [if_neg hesc]
        push_neg at hesc
        have hmapped : ((v :: rest).take (1 + countRun v rest 257)).map (· % 256)
            = List.replicate (1 + countRun v rest 257) v := by
          rw [htake, List.map_replicate, Nat.mod_eq_of_lt (show v < 256 by omega)]
        rw [hmapped]
        simp only [List.append_assoc, List.length_cons]
        have hlenrw : rest.length + 1
            = (1 + countRun v rest 257)
              + ((v :: rest).drop (1 + countRun v rest 257)).length := by
          simp
          omega
        rw [hlenrw, rleDecodeAux_replicate_lit v (by omega)]
        rw [ih _ extra hdropn hdropmem, hsplit]

theorem rleDecodeAux_rleEncode (l extra : List Nat) (h : ∀ x ∈ l, x < 255) :
    rleDecodeAux (rleEncode l ++ extra) l.length = l :=
  rleDecodeAux_rleEncode_aux l.length l extra (Nat.le_refl _) h

theorem decode_encode_exact (l extra : List Nat) (h : ∀ x ∈ l, x < 255) :
    _decodeRLEStreamToPairIndices (rleEncode l ++ extra) l.length = l := by
  unfold _decodeRLEStreamToPairIndices
  rw [rleDecodeAux_rleEncode l extra h]
  simp

/-! ### Robust decoding of arbitrary (possibly corrupt) streams -/

theorem rleDecodeAux_esc_nil (r : Nat) : rleDecodeAux [255] (r + 1) = [] := rfl

theorem rleDecodeAux_esc_one (c r : Nat) : rleDecodeAux [255, c] (r + 1) = [] := rfl

/-- The decoding loop never produces more cells than requested: a literal
is pushed only under `cellsDecoded < expectedNumCells` and an escape run
is truncated by the `cellsDecoded + k < expectedNumCells` guard. -/
theorem rleDecodeAux_length_le (r : Nat) (bytes : List Nat) :
    (rleDecodeAux bytes r).length ≤ r := by
  induction r using Nat.strong_induction_on generalizing bytes with
  | _ r ih =>
    match r, bytes with
    | 0, bytes => simp [rleDecodeAux_zero]
    | r + 1, [] => simp [rleDecodeAux]
    | r + 1, b :: rest =>
      by_cases hb : b = 255
      · subst hb
        match rest with
        | [] => simp [rleDecodeAux_esc_nil]
        | [c] => simp [rleDecodeAux_esc_one]
        | c :: v :: rest2 =>
          rw [rleDecodeAux_escape]
          have hrec := ih (r + 1 - (c + 3)) (by omega) rest2
          simp only [List.length_append, List.length_replicate]
          omega
      · rw [rleDecodeAux_lit b rest r hb]
        have hrec := ih r (by omega) rest
        simp only [List.length_cons]
        omega

theorem range_map_getD (d : List Nat) (z : Nat) (m : Nat) (h : d.length ≤ m) :
    (List.range m).map (fun i => d.getD i z) = d ++ List.replicate (m - d.length) z := by
  induction m generalizing d with
  | zero =>
    have : d = [] := List.length_eq_zero.mp (Nat.le_zero.mp h)
    subst this
    simp
  | succ m ihm =>
    cases d with
    | nil =>
      rw [List.range_succ_eq_map]
      simp only [List.map_cons, List.map_map, List.nil_append, List.length_nil,
        Nat.sub_zero]
      have hz : ∀ i : Nat, List.getD ([] : List Nat) i z = z := fun i => by
        simp [List.getD]
      rw [List.replicate_succ]
      congr 1
      rw [show ((fun i => List.getD ([] : List Nat) i z) ∘ Nat.succ)
          = fun _ : Nat => z from funext fun i => hz _]
      rw [List.map_const']
      simp
    | cons a d2 =>
      rw [List.range_succ_eq_map]
      simp only [List.map_cons, List.map_map]
      have h0 : List.getD (a :: d2) 0 z = a := rfl
      rw [h0]
      have hcomp : ((fun i => List.getD (a :: d2) i z) ∘ Nat.succ)
          = fun i => List.getD d2 i z := funext fun i => by
        simp [List.getD]
      rw [hcomp, ihm d2 (by simpa using h)]
      simp

/-- Decoding any byte stream with `_decodeRLEStreamToPairIndices`: the result always
has exactly `expected` entries, namely the decoded cells followed by
padding zeros for every cell the (possibly truncated) stream did not
cover. -/
theorem decode_total_shape (bytes : List Nat) (expected : Nat) :
    _decodeRLEStreamToPairIndices bytes expected
      = rleDecodeAux bytes expected
        ++ List.replicate (expected - (rleDecodeAux bytes expected).length) 0
    ∧ (_decodeRLEStreamToPairIndices bytes expected).length = expected := by
  have hle := rleDecodeAux_length_le expected bytes
  unfold _decodeRLEStreamToPairIndices
  by_cases h : (rleDecodeAux bytes expected).length = expected
  · rw [if_pos h]
    constructor
    · rw [h]
      simp
    · exact h
  · rw [if_neg h]
    constructor
    · exact range_map_getD _ 0 _ hle
    · simp

theorem noUnescaped255_esc (a b : Nat) (rest : List Nat) :
    noUnescaped255 (255 :: a :: b :: rest) = noUnescaped255 rest := rfl

theorem noUnescaped255_lit (b : Nat) (rest : List Nat) (hb : b ≠ 255) :
    noUnescaped255 (b :: rest) = noUnescaped255 rest := by
  match rest with
  | [] =>
    rw [show noUnescaped255 [b]
        = if b = 255 then false else noUnescaped255 [] from rfl, if_neg hb]
  | [c] =>
    rw [show noUnescaped255 [b, c]
        = if b = 255 then false else noUnescaped255 [c] from rfl, if_neg hb]
  | c :: d :: rest2 =>
    rw [show noUnescaped255 (b :: c :: d :: rest2)
        = if b = 255 then noUnescaped255 rest2 else noUnescaped255 (c :: d :: rest2) from rfl,
      if_neg hb]

theorem noUnescaped255_replicate_lit (v : Nat) (hv : v ≠ 255) (m : Nat) (tail : List Nat) :
    noUnescaped255 (List.replicate m v ++ tail) = noUnescaped255 tail := by
  induction m with
  | zero => simp
  | succ m ihm =>
    rw [List.replicate_succ, List.cons_append, noUnescaped255_lit v _ hv, ihm]

theorem specMaximalRuns_nil : specMaximalRuns [] = [] := by
  rw [specMaximalRuns]

theorem specMaximalRuns_cons (v : Nat) (rest : List Nat) :
    specMaximalRuns (v :: rest)
      = (v, 1 + countRun v rest 257)
        :: specMaximalRuns ((v :: rest).drop (1 + countRun v rest 257)) := by
  rw [specMaximalRuns]

/-- The source encoder emits, run by run, exactly the bytes the spec
describes for each maximal (capped) run. -/
theorem rleEncode_eq_specRuns_aux :
    ∀ (n : Nat) (l : List Nat), l.length ≤ n →
      rleEncode l = (specMaximalRuns l).flatMap specRunBytes := by
  intro n
  induction n with
  | zero =>
    intro l hlen
    have : l = [] := List.length_eq_zero.mp (Nat.le_zero.mp hlen)
    subst this
    simp [rleEncode_nil, specMaximalRuns_nil]
  | succ n ih =>
    intro l hlen
    match l with
    | [] => simp [rleEncode_nil, specMaximalRuns_nil]
    | v :: rest =>
      rw [rleEncode_cons, specMaximalRuns_cons, List.flatMap_cons]
      have hdropn : ((v :: rest).drop (1 + countRun v rest 257)).length ≤ n := by
        simp at hlen ⊢
        omega
      rw [← ih _ hdropn]
      unfold specRunBytes
      by_cases hesc : v = 255 ∨ 3 ≤ 1 + countRun v rest 257
      · rw [if_pos hesc, if_pos hesc]
        simp
      · rw [if_neg hesc, if_neg hesc]
        rw [take_countRun_cons v rest, List.map_replicate]

theorem rleEncode_eq_specRuns (l : List Nat) :
    rleEncode l = (specMaximalRuns l).flatMap specRunBytes :=
  rleEncode_eq_specRuns_aux l.length l (Nat.le_refl _)

/-- Every run the spec-side segmentation produces has length between 1
and the cap 258. -/
theorem specMaximalRuns_bounds_aux :
    ∀ (n : Nat) (l : List Nat), l.length ≤ n →
      ∀ p ∈ specMaximalRuns l, 1 ≤ p.2 ∧ p.2 ≤ 258 := by
  intro n
  induction n with
  | zero =>
    intro l hlen
    have : l = [] := List.length_eq_zero.mp (Nat.le_zero.mp hlen)
    subst this
    simp [specMaximalRuns_nil]
  | succ n ih =>
    intro l hlen p hp
    match l with
    | [] => simp [specMaximalRuns_nil] at hp
    | v :: rest =>
      rw [specMaximalRuns_cons] at hp
      rcases List.mem_cons.mp hp with h | h
      · subst h
        have := countRun_le_cap v rest 257
        constructor <;> omega
      · have hdropn : ((v :: rest).drop (1 + countRun v rest 257)).length ≤ n := by
          simp at hlen ⊢
          omega
        exact ih _ hdropn p h

/-- If the counted run stopped below the cap, the next element (if any)
differs from the run value. -/
theorem countRun_stop :
    ∀ (l : List Nat) (cap v : Nat), countRun v l cap < cap →
      ∀ w ws, l.drop (countRun v l cap) = w :: ws → w ≠ v := by
  intro l
  induction l with
  | nil =>
    intro cap v h w ws hd
    simp at hd
  | cons x xs ihl =>
    intro cap v h w ws hd
    cases cap with
    | zero => omega
    | succ c =>
      by_cases hx : x = v
      · rw [show countRun v (x :: xs) (c + 1) = countRun v xs c + 1 from by
          simp [countRun, hx]] at h hd
        simp only [List.drop_succ_cons] at hd
        exact ihl c v (by omega) w ws hd
      · rw [show countRun v (x :: xs) (c + 1) = 0 from by simp [countRun, hx]] at hd
        rw [List.drop_zero] at hd
        injection hd with h1 h2
        subst h1
        exact hx

/-- The runs of the spec-side segmentation are maximal: two consecutive
runs either carry different indices, or the first was truncated at the
cap of 258. -/
theorem specMaximalRuns_maximal_aux :
    ∀ (n : Nat) (l : List Nat), l.length ≤ n →
      List.Chain' (fun p q : Nat × Nat => p.1 ≠ q.1 ∨ p.2 = 258) (specMaximalRuns l) := by
  intro n
  induction n with
  | zero =>
    intro l hlen
    have : l = [] := List.length_eq_zero.mp (Nat.le_zero.mp hlen)
    subst this
    simp [specMaximalRuns_nil]
  | succ n ih =>
    intro l hlen
    match l with
    | [] => simp [specMaximalRuns_nil]
    | v :: rest =>
      have hdropn : ((v :: rest).drop (1 + countRun v rest 257)).length ≤ n := by
        simp at hlen ⊢
        omega
      rw [specMaximalRuns_cons, List.chain'_cons']
      refine ⟨?_, ih _ hdropn⟩
      intro q hq
      cases hdrop : (v :: rest).drop (1 + countRun v rest 257) with
      | nil =>
        rw [hdrop, specMaximalRuns_nil] at hq
        simp at hq
      | cons w ws =>
        rw [hdrop, specMaximalRuns_cons] at hq
        simp only [List.head?_cons, Option.mem_def, Option.some.injEq] at hq
        subst hq
        by_cases hcap : countRun v rest 257 = 257
        · right
          simp only []
          omega
        · left
          rw [Nat.add_comm 1 (countRun v rest 257), List.drop_succ_cons] at hdrop
          have hwv := countRun_stop rest 257 v
            (Nat.lt_of_le_of_ne (countRun_le_cap v rest 257) hcap) w ws hdrop
          simp only [ne_eq, Prod.fst]
          exact fun h => hwv h.symm

/-- A literal 255 never appears unescaped in the encoder's output (input
indices are bytes). -/
theorem noUnescaped255_rleEncode_aux :
    ∀ (n : Nat) (l : List Nat), l.length ≤ n → (∀ x ∈ l, x < 256) →
      noUnescaped255 (rleEncode l) = true := by
  intro n
  induction n with
  | zero =>
    intro l hlen _
    have : l = [] := List.length_eq_zero.mp (Nat.le_zero.mp hlen)
    subst this
    simp [rleEncode_nil, noUnescaped255]
  | succ n ih =>
    intro l hlen hmem
    match l with
    | [] => simp [rleEncode_nil, noUnescaped255]
    | v :: rest =>
      have hv : v < 256 := hmem v (by simp)
      have hdropn : ((v :: rest).drop (1 + countRun v rest 257)).length ≤ n := by
        simp at hlen ⊢
        omega
      have hdropmem : ∀ x ∈ (v :: rest).drop (1 + countRun v rest 257), x < 256 :=
        fun x hx => hmem x (List.mem_of_mem_drop hx)
      rw [rleEncode_cons]
      by_cases hesc : v = 255 ∨ 3 ≤ 1 + countRun v rest 257
      · rw [if_pos hesc, noUnescaped255_esc]
        exact ih _ hdropn hdropmem
      · rw [if_neg hesc]
        push_neg at hesc
        have hvne : v % 256 ≠ 255 := by
          rw [Nat.mod_eq_of_lt hv]
          exact hesc.1
        rw [take_countRun_cons v rest, List.map_replicate,
          noUnescaped255_replicate_lit _ hvne]
        exact ih _ hdropn hdropmem

example :
    buildLocalPairPalette [[[⟨66, 1⟩, ⟨65, 1⟩], [⟨66, 1⟩]]] true
      = some [⟨32, 0⟩, ⟨65, 1⟩, ⟨66, 1⟩] := by decide

/-! ### Generic insertion-sort lemmas -/

theorem insertSorted_perm {α : Type} (le : α → α → Bool) (a : α) (l : List α) :
    (insertSorted le a l).Perm (a :: l) := by
  induction l with
  | nil => simp [insertSorted]
  | cons b l ihl =>
    rw [insertSorted]
    split
    · exact List.Perm.refl _
    · exact (List.Perm.cons b ihl).trans (List.Perm.swap a b l)

theorem insertionSort_perm {α : Type} (le : α → α → Bool) (l : List α) :
    (insertionSort le l).Perm l := by
  induction l with
  | nil => simp [insertionSort]
  | cons a l ihl =>
    rw [insertionSort]
    exact (insertSorted_perm le a (insertionSort le l)).trans (List.Perm.cons a ihl)

theorem insertSorted_pairwise {α : Type} (le : α → α → Bool)
    (htot : ∀ a b, le a b = false → le b a = true)
    (htrans : ∀ a b c, le a b = true → le b c = true → le a c = true)
    (a : α) (l : List α) (hs : l.Pairwise (fun x y => le x y = true)) :
    (insertSorted le a l).Pairwise (fun x y => le x y = true) := by
  induction l with
  | nil => simp [insertSorted]
  | cons b l ihl =>
    rw [insertSorted]
    rcases List.pairwise_cons.mp hs with ⟨hb, hl⟩
    split
    · next hab =>
      refine List.pairwise_cons.mpr ⟨?_, hs⟩
      intro x hx
      rcases List.mem_cons.mp hx with h | h
      · subst h
        exact hab
      · exact htrans a b x hab (hb x h)
    · next hab =>
      refine List.pairwise_cons.mpr ⟨?_, ihl hl⟩
      intro x hx
      have hx2 : x ∈ a :: l := (insertSorted_perm le a l).mem_iff.mp hx
      rcases List.mem_cons.mp hx2 with h | h
      · subst h
        exact htot x b (by simpa using hab)
      · exact hb x h

theorem insertionSort_pairwise {α : Type} (le : α → α → Bool)
    (htot : ∀ a b, le a b = false → le b a = true)
    (htrans : ∀ a b c, le a b = true → le b c = true → le a c = true)
    (l : List α) :
    (insertionSort le l).Pairwise (fun x y => le x y = true) := by
  induction l with
  | nil => simp [insertionSort]
  | cons a l ihl =>
    rw [insertionSort]
    exact insertSorted_pairwise le htot htrans a _ ihl

/-- Two sorted lists that are permutations of each other and whose
elements are pairwise distinguished by the order are equal. -/
theorem eq_of_perm_of_pairwise {α : Type} (le : α → α → Bool) :
    ∀ (l1 l2 : List α), l1.Perm l2 →
      l1.Pairwise (fun x y => le x y = true) →
      l2.Pairwise (fun x y => le x y = true) →
      (∀ a ∈ l1, ∀ b ∈ l1, le a b = true → le b a = true → a = b) →
      l1 = l2 := by
  intro l1
  induction l1 with
  | nil =>
    intro l2 hp _ _ _
    exact (List.Perm.nil_eq hp).symm.symm ▸ (List.Perm.eq_nil hp.symm).symm
  | cons a t1 ih =>
    intro l2 hp hs1 hs2 hanti
    cases l2 with
    | nil => exact absurd (List.Perm.eq_nil hp) (by simp)
    | cons b t2 =>
      rcases List.pairwise_cons.mp hs1 with ⟨ha1, ht1⟩
      rcases List.pairwise_cons.mp hs2 with ⟨hb2, ht2⟩
      have hab : a = b := by
        have hamem : a ∈ b :: t2 := hp.mem_iff.mp (by simp)
        rcases List.mem_cons.mp hamem with h | h
        · exact h
        · have hbmem : b ∈ a :: t1 := hp.symm.mem_iff.mp (by simp)
          rcases List.mem_cons.mp hbmem with h2 | h2
          · exact h2.symm
          · exact hanti a (by simp) b (by simp [h2]) (ha1 b h2) (hb2 a h)
      subst hab
      have htp : t1.Perm t2 := List.Perm.cons_inv hp
      have := ih t2 htp ht1 ht2
        (fun x hx y hy hxy hyx => hanti x (by simp [hx]) y (by simp [hy]) hxy hyx)
      rw [this]

theorem pairLe_iff (a b : CellPair) : pairLe a b = true ↔ pairLeP a b := by
  unfold pairLe pairLeP
  exact decide_eq_true_iff

theorem pairLe_total (a b : CellPair) : pairLe a b = false → pairLe b a = true := by
  intro h
  rw [pairLe_iff]
  have h2 : ¬pairLeP a b := by
    rw [← pairLe_iff, h]
    simp
  unfold pairLeP at h2 ⊢
  omega

theorem pairLe_trans (a b c : CellPair) :
    pairLe a b = true → pairLe b c = true → pairLe a c = true := by
  rw [pairLe_iff, pairLe_iff, pairLe_iff]
  unfold pairLeP
  omega

theorem pairLe_antisymm (a b : CellPair) :
    pairLe a b = true → pairLe b a = true → a = b := by
  rw [pairLe_iff, pairLe_iff]
  unfold pairLeP
  intro h1 h2
  cases a
  cases b
  simp only [CellPair.mk.injEq] at h1 h2 ⊢
  omega

/-! ### Dedupe lemmas -/

theorem dedupeAux_mem (l : List CellPair) :
    ∀ (acc : List CellPair) (p : CellPair), p ∈ dedupeAux acc l ↔ p ∈ acc ∨ p ∈ l := by
  induction l with
  | nil =>
    intro acc p
    simp [dedupeAux]
  | cons c rest ihl =>
    intro acc p
    rw [dedupeAux]
    split
    · next hc =>
      rw [ihl acc p]
      constructor
      · rintro (h | h)
        · exact Or.inl h
        · exact Or.inr (by simp [h])
      · rintro (h | h)
        · exact Or.inl h
        · rcases List.mem_cons.mp h with h2 | h2
          · exact Or.inl (h2 ▸ hc)
          · exact Or.inr h2
    · rw [ihl (acc ++ [c]) p]
      simp only [List.mem_append, List.mem_singleton, List.mem_cons]
      tauto

theorem dedupeAux_nodup (l : List CellPair) :
    ∀ (acc : List CellPair), acc.Nodup → (dedupeAux acc l).Nodup := by
  induction l with
  | nil =>
    intro acc h
    simpa [dedupeAux] using h
  | cons c rest ihl =>
    intro acc h
    rw [dedupeAux]
    split
    · exact ihl acc h
    · next hc =>
      refine ihl (acc ++ [c]) ?_
      simp [List.nodup_append, h, hc]

/-! ### Palette invariants -/

theorem fontCells_mem (data : List (List (List CellPair))) (p : CellPair) :
    p ∈ fontCells data ↔ ∃ gl ∈ data, ∃ line ∈ gl, p ∈ line := by
  unfold fontCells
  simp [List.mem_flatMap]

theorem uniquePairs_mem (data : List (List (List CellPair))) (padFlag : Bool) (p : CellPair) :
    p ∈ uniquePairs data padFlag
      ↔ ((∃ gl ∈ data, ∃ line ∈ gl, p ∈ line) ∨ (padFlag = true ∧ p = padPair)) := by
  unfold uniquePairs
  dsimp only
  split
  · next hcond =>
    simp only [List.mem_append, List.mem_singleton]
    rw [dedupeAux_mem]
    simp only [List.not_mem_nil, false_or]
    rw [fontCells_mem]
    constructor
    · rintro (h2 | h2)
      · exact Or.inl h2
      · exact Or.inr ⟨by simpa using hcond.1, h2⟩
    · rintro (h2 | h2)
      · exact Or.inl h2
      · exact Or.inr h2.2
  · next hcond =>
    rw [dedupeAux_mem]
    simp only [List.not_mem_nil, false_or]
    rw [fontCells_mem]
    constructor
    · exact Or.inl
    · rintro (h2 | h2)
      · exact h2
      · rcases h2 with ⟨hpadFlag, hpp⟩
        subst hpp
        by_contra hnotin
        refine hcond ⟨by simp [hpadFlag], fun hin => hnotin ?_⟩
        rw [dedupeAux_mem] at hin
        simp only [List.not_mem_nil, false_or] at hin
        exact (fontCells_mem data padPair).mp hin

theorem uniquePairs_nodup (data : List (List (List CellPair))) (padFlag : Bool) :
    (uniquePairs data padFlag).Nodup := by
  unfold uniquePairs
  dsimp only
  split
  · next hcond =>
    rw [List.nodup_append]
    refine ⟨dedupeAux_nodup _ [] (by simp), by simp, ?_⟩
    simp only [List.disjoint_singleton]
    exact hcond.2
  · exact dedupeAux_nodup _ [] (by simp)

/-- The result of `buildLocalPairPalette`, when it succeeds: the palette
holds exactly the cell pairs occurring in the font's glyph data — plus
the padding pair exactly when the padding flag is set — each exactly
once, canonically sorted, and within the 254-entry limit. -/
theorem buildLocalPairPalette_spec (data : List (List (List CellPair))) (padFlag : Bool)
    (P : List CellPair) (h : buildLocalPairPalette data padFlag = some P) :
    (∀ p, p ∈ P ↔ ((∃ gl ∈ data, ∃ line ∈ gl, p ∈ line) ∨ (padFlag = true ∧ p = padPair)))
    ∧ P.Nodup ∧ P.Pairwise pairLeP ∧ P.length ≤ 254 := by
  unfold buildLocalPairPalette at h
  simp only [] at h
  split at h
  · exact absurd h (by simp)
  · next hlen =>
    have hP : P = sortPairs (uniquePairs data padFlag) := (Option.some.inj h).symm
    have hperm : P.Perm (uniquePairs data padFlag) := by
      rw [hP]
      exact insertionSort_perm pairLe _
    refine ⟨?_, ?_, ?_, ?_⟩
    · intro p
      rw [hperm.mem_iff]
      exact uniquePairs_mem data padFlag p
    · exact hperm.nodup_iff.mpr (uniquePairs_nodup data padFlag)
    · have := insertionSort_pairwise pairLe pairLe_total pairLe_trans
        (uniquePairs data padFlag)
      rw [← sortPairs, ← hP] at this
      exact this.imp (fun hx => (pairLe_iff _ _).mp hx)
    · rw [hP]
      omega

/-! ### Glyph round-trip -/

/-- The flat index stream is the padded grid mapped through the palette
lookup: past the line's end, `getD` already yields the padding pair, so
the branch on `x < line.length` collapses. -/
theorem flatIndexStream_eq_map (g : RawGlyph) (P : List CellPair) :
    flatIndexStream g P = (paddedGrid g).map (lookupPairIndex P) := by
  unfold flatIndexStream paddedGrid
  rw [List.map_flatMap]
  congr 1
  funext y
  rw [List.map_map]
  congr 1
  funext x
  simp only [Function.comp_apply]
  by_cases hx : x < (g.lines.getD y []).length
  · rw [if_pos hx]
  · rw [if_neg hx, List.getD_eq_default _ _ (by omega)]

theorem paddedGrid_length (g : RawGlyph) :
    (paddedGrid g).length = g.declaredWidth * actualHeight g := by
  unfold paddedGrid
  simp [List.length_flatMap, Function.comp_def, List.map_const', List.sum_const_nat,
    Nat.mul_comm]

/-- Every cell of the padded grid is either a data cell from one of the
glyph's lines, or the padding pair at a position witnessing that the
glyph is ragged (in the sense of `main`'s padding test). -/
theorem paddedGrid_mem (g : RawGlyph) (p : CellPair) (hp : p ∈ paddedGrid g) :
    (∃ line ∈ g.lines, p ∈ line) ∨ (p = padPair ∧ glyphNeedsPadding g = true) := by
  unfold paddedGrid at hp
  rw [List.mem_flatMap] at hp
  obtain ⟨y, hy, hpx⟩ := hp
  rw [List.mem_map] at hpx
  obtain ⟨x, hx, hpeq⟩ := hpx
  rw [List.mem_range] at hy hx
  by_cases hxl : x < (g.lines.getD y []).length
  · left
    have hylen : y < g.lines.length := by
      by_contra hyl
      push_neg at hyl
      rw [List.getD_eq_default _ _ hyl] at hxl
      simp at hxl
    refine ⟨g.lines.getD y [], ?_, ?_⟩
    · rw [List.getD_eq_getElem _ _ hylen]
      exact List.getElem_mem hylen
    · rw [← hpeq, List.getD_eq_getElem _ _ hxl]
      exact List.getElem_mem hxl
  · right
    push_neg at hxl
    constructor
    · rw [← hpeq, List.getD_eq_default _ _ hxl]
    · unfold glyphNeedsPadding
      by_cases hylen : y < g.lines.length
      · rw [Bool.or_eq_true]
        left
        rw [List.any_eq_true]
        refine ⟨g.lines.getD y [], ?_, ?_⟩
        · rw [List.getD_eq_getElem _ _ hylen]
          exact List.getElem_mem hylen
        · simp only [decide_eq_true_eq]
          omega
      · push_neg at hylen
        have hnil : g.lines = [] := by
          unfold actualHeight at hy
          split at hy
          · omega
          · next hlen0 => exact List.length_eq_zero.mp (by omega)
        rw [Bool.or_eq_true]
        right
        rw [Bool.and_eq_true, Bool.and_eq_true]
        refine ⟨⟨?_, ?_⟩, ?_⟩
        · rw [hnil]
          simp
        · simp only [decide_eq_true_eq]
          omega
        · simp only [decide_eq_true_eq]
          unfold actualHeight
          split <;> omega

theorem lookupPairIndex_lt (P : List CellPair) (hP : P.length ≤ 254) (p : CellPair) :
    lookupPairIndex P p < 255 := by
  unfold lookupPairIndex
  split <;> omega

/-- Mapping palette indices of in-palette cells back through the palette
is the identity (the out-of-range fallback is never taken). -/
theorem mapIndicesToCells_lookup (P : List CellPair) :
    ∀ (grid : List CellPair), (∀ p ∈ grid, p ∈ P) →
      mapIndicesToCells P (grid.map (lookupPairIndex P)) = grid := by
  intro grid
  induction grid with
  | nil => intro _; rfl
  | cons p t iht =>
    intro hmem
    have hp : p ∈ P := hmem p (by simp)
    have hip : P.indexOf p < P.length := List.indexOf_lt_length.mpr hp
    rw [List.map_cons]
    rw [show mapIndicesToCells P (lookupPairIndex P p :: t.map (lookupPairIndex P))
        = (if P.length ≤ lookupPairIndex P p then ⟨0x20, 0x07⟩
           else P.getD (lookupPairIndex P p) ⟨0x20, 0x07⟩)
          :: mapIndicesToCells P (t.map (lookupPairIndex P)) from rfl]
    rw [iht (fun q hq => hmem q (by simp [hq]))]
    congr 1
    unfold lookupPairIndex
    rw [if_pos hip, if_neg (by omega)]
    rw [List.getD_eq_getElem _ _ hip]
    exact List.getElem_indexOf _

/-- Unpacking a successful `processFont`. -/
theorem processFont_palette (F : FontInput) (rec : ProcessedFont)
    (h : processFont F = some rec) :
    buildLocalPairPalette (F.glyphs.map (fun cg => cg.2.lines)) (fontRequiresPaddingFlag F)
      = some rec.pairPalette
    ∧ rec.encodedGlyphs = F.glyphs.map (fun cg =>
        (cg.1, ⟨cg.2.declaredWidth, actualHeight cg.2,
          encodeGlyphToRLEStream cg.2 rec.pairPalette⟩))
    ∧ rec.uniqueKey = F.uniqueKey ∧ rec.spacing = F.spacing := by
  unfold processFont at h
  split at h
  · exact absurd h (by simp)
  · cases hpal : buildLocalPairPalette (F.glyphs.map fun cg => cg.2.lines)
        (fontRequiresPaddingFlag F) with
    | none =>
      rw [hpal] at h
      exact absurd h (by simp)
    | some P =>
      rw [hpal] at h
      simp only [Option.some.injEq] at h
      rw [← h]
      exact ⟨rfl, rfl, rfl, rfl⟩

/-- The glyph round-trip: for a font the packer accepted, decoding any
of its glyphs' encoded streams (with any trailing bundle bytes)
reproduces the padded grid. -/
theorem glyph_roundtrip (F : FontInput) (rec : ProcessedFont) (h : processFont F = some rec)
    (c : Nat) (g : RawGlyph) (hg : (c, g) ∈ F.glyphs) (extra : List Nat) :
    decodeGlyphCells rec.pairPalette (encodeGlyphToRLEStream g rec.pairPalette ++ extra)
      g.declaredWidth (actualHeight g) = paddedGrid g := by
  obtain ⟨hpal, henc, _, _⟩ := processFont_palette F rec h
  obtain ⟨hmem_iff, hnodup, hsorted, hlen⟩ := buildLocalPairPalette_spec _ _ _ hpal
  have hgridmem : ∀ p ∈ paddedGrid g, p ∈ rec.pairPalette := by
    intro p hp
    rcases paddedGrid_mem g p hp with ⟨line, hline, hpline⟩ | ⟨hpp, hrag⟩
    · exact (hmem_iff p).mpr
        (Or.inl ⟨g.lines, List.mem_map_of_mem _ hg, line, hline, hpline⟩)
    · refine (hmem_iff p).mpr (Or.inr ⟨?_, hpp⟩)
      unfold fontRequiresPaddingFlag
      rw [List.any_eq_true]
      exact ⟨(c, g), hg, hrag⟩
  have hidx : ∀ i ∈ (paddedGrid g).map (lookupPairIndex rec.pairPalette), i < 255 := by
    intro i hi
    rw [List.mem_map] at hi
    obtain ⟨p, _, hpi⟩ := hi
    rw [← hpi]
    exact lookupPairIndex_lt _ hlen p
  unfold decodeGlyphCells encodeGlyphToRLEStream
  rw [flatIndexStream_eq_map]
  have hlen2 : g.declaredWidth * actualHeight g
      = ((paddedGrid g).map (lookupPairIndex rec.pairPalette)).length := by
    rw [List.length_map, paddedGrid_length]
  rw [hlen2, decode_encode_exact _ extra hidx]
  exact mapIndicesToCells_lookup rec.pairPalette (paddedGrid g) hgridmem

/-! ### Writer/reader agreement on the header -/

theorem fontIndexTableBytes_length (fonts : List ProcessedFont) :
    ∀ koff doff, (fontIndexTableBytes fonts koff doff).length = 8 * fonts.length := by
  induction fonts with
  | nil => intro koff doff; rfl
  | cons f rest ih =>
    intro koff doff
    rw [fontIndexTableBytes]
    simp only [List.length_append, List.length_cons, u32le]
    rw [ih]
    simp
    omega

theorem stringPoolBytes_length_ge (fonts : List ProcessedFont) :
    fonts.length ≤ (stringPoolBytes fonts).length := by
  induction fonts with
  | nil => simp [stringPoolBytes]
  | cons f rest ih =>
    unfold stringPoolBytes at ih ⊢
    simp only [List.flatMap_cons, List.length_append, List.length_cons]
    omega

theorem fontBlockBytes_length_ge (f : ProcessedFont) : 3 ≤ (fontBlockBytes f).length := by
  unfold fontBlockBytes
  simp
  omega

theorem fontDataPool_length_ge (fonts : List ProcessedFont) (h : fonts ≠ []) :
    1 ≤ (fonts.flatMap fontBlockBytes).length := by
  cases fonts with
  | nil => exact absurd rfl h
  | cons f rest =>
    have := fontBlockBytes_length_ge f
    simp only [List.flatMap_cons, List.length_append]
    omega

/-- The reader's header validation accepts any bundle the writer
assembles, reading back exactly the writer's font count and section
offsets (version 4 included). -/
theorem parseBundleHeader_ok (n : Nat) (it sp dp : List Nat)
    (hit : it.length = 8 * n)
    (hsp : 1 ≤ sp.length)
    (hdp : 1 ≤ dp.length)
    (hbig : 21 + it.length + sp.length + dp.length < 4294967296) :
    _parseBundleHeader (_buildBundleHeader n it.length sp.length ++ (it ++ (sp ++ dp)))
      = .ok ⟨4, n, 21, 21 + it.length, 21 + it.length + sp.length⟩ := by
  have hlen : (_buildBundleHeader n it.length sp.length ++ (it ++ (sp ++ dp))).length
      = 21 + it.length + sp.length + dp.length := by
    simp [_buildBundleHeader, u32le]
    omega
  have hm0 : (_buildBundleHeader n it.length sp.length ++ (it ++ (sp ++ dp))).getD 0 0
      = 84 := rfl
  have hm1 : (_buildBundleHeader n it.length sp.length ++ (it ++ (sp ++ dp))).getD 1 0
      = 68 := rfl
  have hm2 : (_buildBundleHeader n it.length sp.length ++ (it ++ (sp ++ dp))).getD 2 0
      = 70 := rfl
  have hm3 : (_buildBundleHeader n it.length sp.length ++ (it ++ (sp ++ dp))).getD 3 0
      = 66 := rfl
  have hv : (_buildBundleHeader n it.length sp.length ++ (it ++ (sp ++ dp))).getD 4 0
      = 4 := rfl
  have r5 : readU32 (_buildBundleHeader n it.length sp.length ++ (it ++ (sp ++ dp))) 5
      = n % 256 + 256 * (n / 256 % 256) + 65536 * (n / 65536 % 256)
        + 16777216 * (n / 16777216 % 256) := rfl
  have r9 : readU32 (_buildBundleHeader n it.length sp.length ++ (it ++ (sp ++ dp))) 9
      = 21 := rfl
  have r13 : readU32 (_buildBundleHeader n it.length sp.length ++ (it ++ (sp ++ dp))) 13
      = (21 + it.length) % 256 + 256 * ((21 + it.length) / 256 % 256)
        + 65536 * ((21 + it.length) / 65536 % 256)
        + 16777216 * ((21 + it.length) / 16777216 % 256) := rfl
  have r17 : readU32 (_buildBundleHeader n it.length sp.length ++ (it ++ (sp ++ dp))) 17
      = (21 + it.length + sp.length) % 256
        + 256 * ((21 + it.length + sp.length) / 256 % 256)
        + 65536 * ((21 + it.length + sp.length) / 65536 % 256)
        + 16777216 * ((21 + it.length + sp.length) / 16777216 % 256) := rfl
  have hn32 : n < 4294967296 := by omega
  have hv5 : readU32 (_buildBundleHeader n it.length sp.length ++ (it ++ (sp ++ dp))) 5
      = n := by
    rw [r5]
    omega
  have hv13 : readU32 (_buildBundleHeader n it.length sp.length ++ (it ++ (sp ++ dp))) 13
      = 21 + it.length := by
    rw [r13]
    omega
  have hv17 : readU32 (_buildBundleHeader n it.length sp.length ++ (it ++ (sp ++ dp))) 17
      = 21 + it.length + sp.length := by
    rw [r17]
    omega
  unfold _parseBundleHeader
  rw [if_neg (by rw [hlen]; omega)]
  rw [hm0, hm1, hm2, hm3, hv]
  rw [if_neg (by simp)]
  rw [if_neg (by simp)]
  dsimp only
  rw [hv5, r9, hv13, hv17, hlen]
  rw [if_neg (by omega)]

/-- Bundle assembly splits as header ++ (index table ++ (string pool ++
font data pool)). -/
theorem buildBundle_split (fonts : List ProcessedFont) :
    buildBundle fonts
      = _buildBundleHeader (sortFontsByKey fonts).length
          (fontIndexTableBytes (sortFontsByKey fonts) 0 0).length
          (stringPoolBytes (sortFontsByKey fonts)).length
        ++ (fontIndexTableBytes (sortFontsByKey fonts) 0 0
            ++ (stringPoolBytes (sortFontsByKey fonts)
                ++ (sortFontsByKey fonts).flatMap fontBlockBytes)) := by
  unfold buildBundle
  simp [List.append_assoc]

/-! ### Determinism of the bundle bytes -/

theorem keyLe_total : ∀ a b : List Nat, keyLe a b = false → keyLe b a = true := by
  intro a
  induction a with
  | nil => intro b h; simp [keyLe] at h
  | cons x xs ih =>
    intro b h
    cases b with
    | nil => rfl
    | cons y ys =>
      rw [keyLe] at h ⊢
      by_cases hxy : x < y
      · simp [hxy] at h
      · by_cases hyx : y < x
        · simp [hxy, hyx]
        · simp only [if_neg hxy, if_neg hyx] at h
          simp only [if_neg hyx, if_neg hxy]
          exact ih ys h

theorem keyLe_trans : ∀ a b c : List Nat, keyLe a b = true → keyLe b c = true →
    keyLe a c = true := by
  intro a
  induction a with
  | nil => intro b c _ _; rfl
  | cons x xs ih =>
    intro b c hab hbc
    cases b with
    | nil => simp [keyLe] at hab
    | cons y ys =>
      cases c with
      | nil => simp [keyLe] at hbc
      | cons z zs =>
        rw [keyLe] at hab hbc ⊢
        by_cases hxy : x < y <;> by_cases hyz : y < z
        · simp [show x < z by omega]
        · by_cases hzy : z < y
          · simp [hzy] at hbc
            omega
          · have hyz2 : y = z := by omega
            simp [show x < z by omega]
        · by_cases hyx : y < x
          · simp [hxy, hyx] at hab
          · have hxy2 : x = y := by omega
            simp [show x < z by omega]
        · by_cases hyx : y < x
          · simp [hxy, hyx] at hab
          · by_cases hzy : z < y
            · simp [hyz, hzy] at hbc
            · have hxz : ¬x < z := by omega
              have hzx : ¬z < x := by omega
              simp only [if_neg hxy, if_neg hyx] at hab
              simp only [if_neg hyz, if_neg hzy] at hbc
              simp only [if_neg hxz, if_neg hzx]
              exact ih ys zs hab hbc

theorem keyLe_antisymm : ∀ a b : List Nat, keyLe a b = true → keyLe b a = true →
    a = b := by
  intro a
  induction a with
  | nil =>
    intro b _ hba
    cases b with
    | nil => rfl
    | cons y ys => simp [keyLe] at hba
  | cons x xs ih =>
    intro b hab hba
    cases b with
    | nil => simp [keyLe] at hab
    | cons y ys =>
      rw [keyLe] at hab hba
      by_cases hxy : x < y
      · simp [show ¬(y < x) by omega, hxy] at hba
      · by_cases hyx : y < x
        · simp [hxy, hyx] at hab
        · have hxy2 : x = y := by omega
          simp only [if_neg hxy, if_neg hyx] at hab
          simp only [if_neg hyx, if_neg hxy] at hba
          rw [hxy2, ih ys hab hba]

theorem fontLe_total (a b : ProcessedFont) : fontLe a b = false → fontLe b a = true :=
  keyLe_total a.uniqueKey b.uniqueKey

theorem fontLe_trans (a b c : ProcessedFont) :
    fontLe a b = true → fontLe b c = true → fontLe a c = true :=
  keyLe_trans a.uniqueKey b.uniqueKey c.uniqueKey

/-- Sorting by unique key is order-insensitive once the keys are
pairwise distinct. -/
theorem sortFontsByKey_eq_of_perm (l1 l2 : List ProcessedFont) (hperm : l1.Perm l2)
    (hnodup : (l1.map (fun f => f.uniqueKey)).Nodup) :
    sortFontsByKey l1 = sortFontsByKey l2 := by
  refine eq_of_perm_of_pairwise fontLe (sortFontsByKey l1) (sortFontsByKey l2)
    ((insertionSort_perm fontLe l1).trans (hperm.trans (insertionSort_perm fontLe l2).symm))
    (insertionSort_pairwise fontLe fontLe_total fontLe_trans l1)
    (insertionSort_pairwise fontLe fontLe_total fontLe_trans l2)
    ?_
  intro a ha b hb hab hba
  have ha2 : a ∈ l1 := (insertionSort_perm fontLe l1).mem_iff.mp ha
  have hb2 : b ∈ l1 := (insertionSort_perm fontLe l1).mem_iff.mp hb
  have hkey : a.uniqueKey = b.uniqueKey := keyLe_antisymm _ _ hab hba
  exact List.inj_on_of_nodup_map hnodup ha2 hb2 hkey

/-- Byte-identical bundles from any permutation of the processed fonts
(keys pairwise distinct). -/
theorem buildBundle_perm (l1 l2 : List ProcessedFont) (hperm : l1.Perm l2)
    (hnodup : (l1.map (fun f => f.uniqueKey)).Nodup) :
    buildBundle l1 = buildBundle l2 := by
  unfold buildBundle
  rw [sortFontsByKey_eq_of_perm l1 l2 hperm hnodup]

/-- The palette builder is insensitive to the order in which the glyph
line data was gathered. -/
theorem buildLocalPairPalette_perm (d1 d2 : List (List (List CellPair))) (padFlag : Bool)
    (hperm : d1.Perm d2) :
    buildLocalPairPalette d1 padFlag = buildLocalPairPalette d2 padFlag := by
  have hu : sortPairs (uniquePairs d1 padFlag) = sortPairs (uniquePairs d2 padFlag) := by
    have hpermu : (uniquePairs d1 padFlag).Perm (uniquePairs d2 padFlag) := by
      rw [List.perm_ext_iff_of_nodup (uniquePairs_nodup d1 padFlag)
        (uniquePairs_nodup d2 padFlag)]
      intro p
      rw [uniquePairs_mem, uniquePairs_mem]
      constructor
      · rintro (⟨gl, hgl, hrest⟩ | h)
        · exact Or.inl ⟨gl, hperm.mem_iff.mp hgl, hrest⟩
        · exact Or.inr h
      · rintro (⟨gl, hgl, hrest⟩ | h)
        · exact Or.inl ⟨gl, hperm.mem_iff.mpr hgl, hrest⟩
        · exact Or.inr h
    refine eq_of_perm_of_pairwise pairLe _ _
      ((insertionSort_perm pairLe _).trans
        (hpermu.trans (insertionSort_perm pairLe _).symm))
      (insertionSort_pairwise pairLe pairLe_total pairLe_trans _)
      (insertionSort_pairwise pairLe pairLe_total pairLe_trans _)
      (fun a _ b _ hab hba => pairLe_antisymm a b hab hba)
  unfold buildLocalPairPalette
  dsimp only
  rw [hu]

example : _findGlyphOffsetInLookupTable [(65, 0), (66, 7), (70, 9)] 66 = some 7 := by
  simp [_findGlyphOffsetInLookupTable, findGo]

example : _findGlyphOffsetInLookupTable [(65, 0), (66, 7), (70, 9)] 67 = none := by
  simp [_findGlyphOffsetInLookupTable, findGo]

theorem findGo_some_aux (glt : List (Nat × Nat)) (c off : Nat)
    (hsort : ∀ i j, i < j → j < glt.length →
      (glt.getD i (0, 0)).1 < (glt.getD j (0, 0)).1)
    (i : Nat) (hi : i < glt.length) (hgi : glt.getD i (0, 0) = (c, off)) :
    ∀ (n low hi1 : Nat), hi1 - low ≤ n → hi1 ≤ glt.length → low ≤ i → i < hi1 →
      findGo glt c low hi1 = some off := by
  have hkeyi : (glt.getD i (0, 0)).1 = c := by rw [hgi]
  intro n
  induction n with
  | zero =>
    intro low hi1 h1 _ h3 h4
    omega
  | succ n ih =>
    intro low hi1 h1 hle hlowi hihi
    have hlh : low < hi1 := by omega
    rw [findGo, dif_pos hlh]
    have hmidlo : low ≤ (low + hi1 - 1) / 2 := by omega
    have hmidhi : (low + hi1 - 1) / 2 < hi1 := by omega
    have hmidlen : (low + hi1 - 1) / 2 < glt.length := by omega
    by_cases hc : (glt.getD ((low + hi1 - 1) / 2) (0, 0)).1 = c
    · rw [if_pos hc]
      have hmidi : (low + hi1 - 1) / 2 = i := by
        rcases Nat.lt_trichotomy ((low + hi1 - 1) / 2) i with h | h | h
        · have := hsort _ i h hi
          omega
        · exact h
        · have := hsort i _ h hmidlen
          omega
      rw [hmidi, hgi]
    · rw [if_neg hc]
      by_cases hlt : c < (glt.getD ((low + hi1 - 1) / 2) (0, 0)).1
      · rw [if_pos hlt]
        have himid : i < (low + hi1 - 1) / 2 := by
          rcases Nat.lt_trichotomy i ((low + hi1 - 1) / 2) with h | h | h
          · exact h
          · exfalso
            rw [← h] at hc
            exact hc hkeyi
          · have := hsort _ i h hi
            omega
        exact ih low _ (by omega) (by omega) hlowi himid
      · rw [if_neg hlt]
        have hmidlt : (low + hi1 - 1) / 2 < i := by
          rcases Nat.lt_trichotomy ((low + hi1 - 1) / 2) i with h | h | h
          · exact h
          · exfalso
            rw [h] at hc
            exact hc hkeyi
          · have := hsort i _ h hmidlen
            omega
        exact ih _ hi1 (by omega) hle (by omega) hihi

theorem findGo_none_aux (glt : List (Nat × Nat)) (c : Nat)
    (hnotin : ∀ p ∈ glt, p.1 ≠ c) :
    ∀ (n low hi1 : Nat), hi1 - low ≤ n → hi1 ≤ glt.length →
      findGo glt c low hi1 = none := by
  intro n
  induction n with
  | zero =>
    intro low hi1 h1 _
    rw [findGo, dif_neg (by omega)]
  | succ n ih =>
    intro low hi1 h1 hle
    by_cases hlh : low < hi1
    · rw [findGo, dif_pos hlh]
      have hmidlo : low ≤ (low + hi1 - 1) / 2 := by omega
      have hmidhi : (low + hi1 - 1) / 2 < hi1 := by omega
      have hmidlen : (low + hi1 - 1) / 2 < glt.length := by omega
      have hmem : glt.getD ((low + hi1 - 1) / 2) (0, 0) ∈ glt := by
        rw [List.getD_eq_getElem _ _ hmidlen]
        exact List.getElem_mem hmidlen
      have hne := hnotin _ hmem
      rw [if_neg hne]
      by_cases hlt : c < (glt.getD ((low + hi1 - 1) / 2) (0, 0)).1
      · rw [if_pos hlt]
        exact ih low _ (by omega) (by omega)
      · rw [if_neg hlt]
        exact ih _ hi1 (by omega) hle
    · rw [findGo, dif_neg hlh]

example :
    calculateLayout (fun c => if c = 65 then some (2, 1) else none) 1 [65, 32, 65] 3 0
      = (72, 16) := by decide

/-! ### Layout lemmas -/

theorem lineAccum_spec (metrics : Nat → Option (Nat × Nat)) (minSpace : Nat)
    (line : List Nat) :
    lineAccum metrics minSpace line
      = ((line.map (fun c => (_getCharLayoutMetrics metrics c minSpace).widthPx)).sum,
         (line.map (fun c => (_getCharLayoutMetrics metrics c minSpace).heightPx)).foldr
           max 0,
         line.countP (fun c =>
           decide (0 < (_getCharLayoutMetrics metrics c minSpace).widthPx)
             || decide (c = 32))) := by
  induction line with
  | nil => rfl
  | cons c rest ih =>
    rw [lineAccum, ih]
    simp only [List.map_cons, List.sum_cons, List.foldr_cons, List.countP_cons]
    refine Prod.ext rfl (Prod.ext rfl ?_)
    simp only []
    by_cases h : 0 < (_getCharLayoutMetrics metrics c minSpace).widthPx ∨ c = 32
    · rw [if_pos h]
      have : (decide (0 < (_getCharLayoutMetrics metrics c minSpace).widthPx)
          || decide (c = 32)) = true := by
        rcases h with h | h <;> simp [h]
      rw [this]
      simp [Nat.add_comm]
    · rw [if_neg h]
      push_neg at h
      have : (decide (0 < (_getCharLayoutMetrics metrics c minSpace).widthPx)
          || decide (c = 32)) = false := by
        simp [h.1, h.2]
      rw [this]
      simp

/-- The function `_calculateSingleLineLayout` computes the amended width formula and
the per-character height maximum floored at one cell. -/
theorem singleLineLayout_spec (metrics : Nat → Option (Nat × Nat))
    (spacing : Nat) (line : List Nat) (minSpace : Nat) :
    _calculateSingleLineLayout metrics spacing line minSpace
      = (amendedLineWidth metrics spacing line minSpace,
         max ((line.map
             (fun c => (_getCharLayoutMetrics metrics c minSpace).heightPx)).foldr max 0)
           CharHeight) := by
  unfold _calculateSingleLineLayout amendedLineWidth
  by_cases he : line.isEmpty
  · rw [if_pos he]
    have : line = [] := by
      cases line with
      | nil => rfl
      | cons a l => simp at he
    subst this
    simp [CharHeight]
  · rw [if_neg he, lineAccum_spec]
    dsimp only
    have hne : line ≠ [] := by
      cases line with
      | nil => simp at he
      | cons a l => simp
    refine Prod.ext ?_ rfl
    simp only [if_neg he]
    rw [if_pos (List.length_pos.mpr hne)]
    split
    · rfl
    · next hcount =>
      have : line.countP (fun c =>
          decide (0 < (_getCharLayoutMetrics metrics c minSpace).widthPx)
            || decide (c = 32)) - 1 = 0 := by omega
      rw [this]
      simp

theorem singleLineLayout_height_ge (metrics : Nat → Option (Nat × Nat))
    (spacing : Nat) (line : List Nat) (minSpace : Nat) :
    CharHeight ≤ (_calculateSingleLineLayout metrics spacing line minSpace).2 := by
  unfold _calculateSingleLineLayout
  split
  · exact Nat.le_refl _
  · exact Nat.le_max_right _ _

theorem splitOnNewline_ne_nil (text : List Nat) : splitOnNewline text ≠ [] := by
  cases text with
  | nil => simp [splitOnNewline]
  | cons c rest =>
    rw [splitOnNewline]
    split
    · simp
    · split <;> simp

theorem splitOnNewline_append (t s : List Nat) :
    splitOnNewline (t ++ 10 :: s) = splitOnNewline t ++ splitOnNewline s := by
  induction t with
  | nil =>
    rw [List.nil_append, splitOnNewline]
    simp [splitOnNewline]
  | cons c t iht =>
    rw [List.cons_append, splitOnNewline]
    by_cases hc : c = 10
    · rw [if_pos hc, iht]
      conv_rhs => rw [splitOnNewline]
      rw [if_pos hc]
      simp
    · rw [if_neg hc, iht]
      conv_rhs => rw [splitOnNewline]
      rw [if_neg hc]
      cases hsp : splitOnNewline t with
      | nil => exact absurd hsp (splitOnNewline_ne_nil t)
      | cons l ls => simp

theorem layoutLines_spec (metrics : Nat → Option (Nat × Nat))
    (spacing minSpace gap : Nat) :
    ∀ lines : List (List Nat), lines ≠ [] →
      layoutLines metrics spacing minSpace gap lines
        = ((lines.map
              (fun l => (_calculateSingleLineLayout metrics spacing l minSpace).1)).foldr
             max 0,
           (lines.map
              (fun l => (_calculateSingleLineLayout metrics spacing l minSpace).2)).sum
             + gap * (lines.length - 1)) := by
  intro lines
  induction lines with
  | nil => intro h; exact absurd rfl h
  | cons l rest ih =>
    intro _
    cases rest with
    | nil =>
      simp [layoutLines]
    | cons l2 rest2 =>
      rw [show layoutLines metrics spacing minSpace gap (l :: l2 :: rest2)
          = (max (_calculateSingleLineLayout metrics spacing l minSpace).1
              (layoutLines metrics spacing minSpace gap (l2 :: rest2)).1,
             (_calculateSingleLineLayout metrics spacing l minSpace).2 + gap
              + (layoutLines metrics spacing minSpace gap (l2 :: rest2)).2) from rfl]
      rw [ih (by simp)]
      simp only [List.map_cons, List.foldr_cons, List.sum_cons, List.length_cons]
      refine Prod.ext rfl ?_
      simp only []
      have e1 : rest2.length + 1 + 1 - 1 = rest2.length + 1 := by omega
      have e2 : rest2.length + 1 - 1 = rest2.length := by omega
      rw [e1, e2, Nat.mul_succ]
      omega

theorem specTotalHeight_ge (metrics : Nat → Option (Nat × Nat))
    (spacing minSpace gap : Nat) (text : List Nat) :
    CharHeight ≤ specTotalHeight metrics spacing minSpace gap text := by
  unfold specTotalHeight
  cases hsp : splitOnNewline text with
  | nil => exact absurd hsp (splitOnNewline_ne_nil text)
  | cons l0 ls =>
    have := singleLineLayout_height_ge metrics spacing l0 minSpace
    simp only [List.map_cons, List.sum_cons]
    omega

/-- The measured height is exactly the spec-side total: sum of per-line
heights plus the gap between consecutive lines (this also covers the
empty text, whose single empty line has the minimum one-cell height). -/
theorem calculateLayout_height (metrics : Nat → Option (Nat × Nat))
    (spacing : Nat) (text : List Nat) (minSpace gap : Nat) :
    (calculateLayout metrics spacing text minSpace gap).2
      = specTotalHeight metrics spacing minSpace gap text := by
  unfold calculateLayout
  by_cases he : text.isEmpty
  · rw [if_pos he]
    have : text = [] := by
      cases text with
      | nil => rfl
      | cons a l => simp at he
    subst this
    unfold specTotalHeight
    simp [splitOnNewline, _calculateSingleLineLayout, CharHeight]
  · rw [if_neg he]
    dsimp only
    rw [layoutLines_spec metrics spacing minSpace gap _ (splitOnNewline_ne_nil text)]
    have := specTotalHeight_ge metrics spacing minSpace gap text
    unfold specTotalHeight at this ⊢
    simp only []
    omega

/-- Appending a newline and further text adds the appended lines' heights
plus one gap. -/
theorem specTotalHeight_append (metrics : Nat → Option (Nat × Nat))
    (spacing minSpace gap : Nat) (t s : List Nat) :
    specTotalHeight metrics spacing minSpace gap (t ++ 10 :: s)
      = specTotalHeight metrics spacing minSpace gap t
        + specTotalHeight metrics spacing minSpace gap s + gap := by
  unfold specTotalHeight
  rw [splitOnNewline_append]
  obtain ⟨a, ha⟩ : ∃ a, (splitOnNewline t).length = a + 1 :=
    ⟨(splitOnNewline t).length - 1, by
      have := List.length_pos.mpr (splitOnNewline_ne_nil t)
      omega⟩
  obtain ⟨b, hb⟩ : ∃ b, (splitOnNewline s).length = b + 1 :=
    ⟨(splitOnNewline s).length - 1, by
      have := List.length_pos.mpr (splitOnNewline_ne_nil s)
      omega⟩
  rw [List.map_append, List.sum_append, List.length_append, ha, hb]
  have : a + 1 + (b + 1) - 1 = a + b + 1 := by omega
  rw [this]
  have h2 : a + 1 - 1 = a := by omega
  have h3 : b + 1 - 1 = b := by omega
  rw [h2, h3]
  ring

/-! ### Batch behaviour of the packer loop -/

/-- A font the per-font processing rejects contributes nothing to the
bundle, and the rest of the batch is unaffected. -/
theorem processFonts_skip (fs1 fs2 : List FontInput) (F : FontInput)
    (h : processFont F = none) :
    processFonts (fs1 ++ F :: fs2) = processFonts fs1 ++ processFonts fs2 := by
  unfold processFonts
  rw [List.filterMap_append]
  simp [List.filterMap_cons, h]

/-! ### Row-major indexing of the padded grid -/

theorem flatMap_range_getD (d : CellPair) (w : Nat) :
    ∀ (h : Nat) (f : Nat → Nat → CellPair) (y x : Nat), y < h → x < w →
      ((List.range h).flatMap (fun y2 => (List.range w).map (f y2))).getD (y * w + x) d
        = f y x := by
  have hblock : ∀ (g : Nat → CellPair) (x : Nat), x < w →
      ((List.range w).map g).getD x d = g x := by
    intro g x hx
    rw [List.getD_eq_getElem _ _ (by simpa using hx)]
    simp
  intro h
  induction h with
  | zero =>
    intro f y x hy _
    omega
  | succ h ih =>
    intro f y x hy hx
    rw [List.range_succ_eq_map]
    rw [List.flatMap_cons]
    cases y with
    | zero =>
      rw [show 0 * w + x = x by omega]
      rw [List.getD_append _ _ _ _ (by simpa using hx)]
      exact hblock (f 0) x hx
    | succ y =>
      have hmul : (y + 1) * w = y * w + w := by ring
      have hlen : ((List.range w).map (f 0)).length = w := by simp
      rw [List.getD_append_right _ _ _ _ (by rw [hlen]; omega)]
      rw [List.flatMap_map, hlen]
      have harith : (y + 1) * w + x - w = y * w + x := by omega
      rw [harith]
      have := ih (fun y2 => f (y2 + 1)) y x (by omega) hx
      simp only [Function.comp_def, Nat.succ_eq_add_one]
      exact this

theorem paddedGrid_getD (g : RawGlyph) (y x : Nat) (hy : y < actualHeight g)
    (hx : x < g.declaredWidth) :
    (paddedGrid g).getD (y * g.declaredWidth + x) padPair
      = (g.lines.getD y []).getD x padPair := by
  unfold paddedGrid
  exact flatMap_range_getD padPair g.declaredWidth (actualHeight g)
    (fun y2 x2 => (g.lines.getD y2 []).getD x2 padPair) y x hy hx

/-! ## Claims -/

/-- C1: For every font the packer processed (any font whose glyphs hold
at most 254 unique (character, attribute) pairs), and every glyph of
that font, decoding the encoder's output — the RLE stream through the
font's pair palette, with ragged lines filled by the padding pair —
reproduces the glyph cell-for-cell: the decoded grid has
width × height cells in row-major order, each equal to the original
cell where the original line had data and to the padding pair
{0x20, 0x00} where it did not, including glyphs that required padding. -/
theorem claim_C1_encode_decode_roundtrip (F : FontInput) (rec : ProcessedFont)
    (h : processFont F = some rec) (c : Nat) (g : RawGlyph) (hg : (c, g) ∈ F.glyphs)
    (extra : List Nat) :
    (c, EncodedGlyph.mk g.declaredWidth (actualHeight g)
        (encodeGlyphToRLEStream g rec.pairPalette)) ∈ rec.encodedGlyphs
    ∧ decodeGlyphCells rec.pairPalette
        (encodeGlyphToRLEStream g rec.pairPalette ++ extra)
        g.declaredWidth (actualHeight g) = paddedGrid g
    ∧ (paddedGrid g).length = g.declaredWidth * actualHeight g
    ∧ (∀ y x, y < actualHeight g → x < g.declaredWidth →
        (paddedGrid g).getD (y * g.declaredWidth + x) padPair
          = (g.lines.getD y []).getD x padPair) := by
  obtain ⟨hpal, henc, _, _⟩ := processFont_palette F rec h
  refine ⟨?_, glyph_roundtrip F rec h c g hg extra, paddedGrid_length g,
    fun y x hy hx => paddedGrid_getD g y x hy hx⟩
  rw [henc]
  exact List.mem_map_of_mem _ hg

theorem claim_C1_witness :
    processFont exFont = some exRec
    ∧ (33, exGlyph) ∈ exFont.glyphs
    ∧ ((33, EncodedGlyph.mk exGlyph.declaredWidth (actualHeight exGlyph)
          (encodeGlyphToRLEStream exGlyph exRec.pairPalette)) ∈ exRec.encodedGlyphs
      ∧ decodeGlyphCells exRec.pairPalette
          (encodeGlyphToRLEStream exGlyph exRec.pairPalette ++ [])
          exGlyph.declaredWidth (actualHeight exGlyph) = paddedGrid exGlyph
      ∧ (paddedGrid exGlyph).length = exGlyph.declaredWidth * actualHeight exGlyph
      ∧ (∀ y x, y < actualHeight exGlyph → x < exGlyph.declaredWidth →
          (paddedGrid exGlyph).getD (y * exGlyph.declaredWidth + x) padPair
            = (exGlyph.lines.getD y []).getD x padPair)) :=
  ⟨rfl, by decide,
    claim_C1_encode_decode_roundtrip exFont exRec rfl 33 exGlyph (by decide) []⟩

/-- C2: The producer and consumer agree on the binary contract: for
every bundle the writer produces from a non-empty set of processed
fonts, the reader's header validation accepts it without a format
error — in particular the format-version byte the writer stamps into
the header (4) is the version the reader's check accepts. -/
theorem claim_C2_header_contract (fonts : List ProcessedFont) (hne : fonts ≠ [])
    (hsize : (buildBundle fonts).length < 4294967296) :
    (buildBundle fonts).getD 4 0 = 4
    ∧ _parseBundleHeader (buildBundle fonts)
        = .ok ⟨4, (sortFontsByKey fonts).length, 21,
            21 + (fontIndexTableBytes (sortFontsByKey fonts) 0 0).length,
            21 + (fontIndexTableBytes (sortFontsByKey fonts) 0 0).length
              + (stringPoolBytes (sortFontsByKey fonts)).length⟩ := by
  have hsne : sortFontsByKey fonts ≠ [] := by
    intro h0
    have hl := (insertionSort_perm fontLe fonts).length_eq
    rw [show sortFontsByKey fonts = insertionSort fontLe fonts from rfl] at h0
    rw [h0] at hl
    exact hne (List.length_eq_zero.mp hl.symm)
  have hsp : 1 ≤ (stringPoolBytes (sortFontsByKey fonts)).length := by
    have h1 := stringPoolBytes_length_ge (sortFontsByKey fonts)
    have h2 : 0 < (sortFontsByKey fonts).length := List.length_pos.mpr hsne
    omega
  have hdp : 1 ≤ ((sortFontsByKey fonts).flatMap fontBlockBytes).length :=
    fontDataPool_length_ge _ hsne
  have hit := fontIndexTableBytes_length (sortFontsByKey fonts) 0 0
  have hlen : (buildBundle fonts).length
      = 21 + (fontIndexTableBytes (sortFontsByKey fonts) 0 0).length
        + (stringPoolBytes (sortFontsByKey fonts)).length
        + ((sortFontsByKey fonts).flatMap fontBlockBytes).length := by
    rw [buildBundle_split]
    simp [_buildBundleHeader, u32le]
    omega
  rw [buildBundle_split]
  refine ⟨rfl, ?_⟩
  have hn8 : (sortFontsByKey fonts).length * 8
      = 8 * (sortFontsByKey fonts).length := by omega
  exact parseBundleHeader_ok (sortFontsByKey fonts).length
    (fontIndexTableBytes (sortFontsByKey fonts) 0 0)
    (stringPoolBytes (sortFontsByKey fonts))
    ((sortFontsByKey fonts).flatMap fontBlockBytes)
    hit hsp hdp (by omega)

theorem claim_C2_witness :
    ([exRecB] ≠ ([] : List ProcessedFont)
      ∧ (buildBundle [exRecB]).length < 4294967296)
    ∧ ((buildBundle [exRecB]).getD 4 0 = 4
      ∧ _parseBundleHeader (buildBundle [exRecB])
          = .ok ⟨4, (sortFontsByKey [exRecB]).length, 21,
              21 + (fontIndexTableBytes (sortFontsByKey [exRecB]) 0 0).length,
              21 + (fontIndexTableBytes (sortFontsByKey [exRecB]) 0 0).length
                + (stringPoolBytes (sortFontsByKey [exRecB])).length⟩) :=
  ⟨⟨by decide, by decide⟩, claim_C2_header_contract [exRecB] (by decide) (by decide)⟩

/-- C3: The RLE encoder escape-encodes each maximal run (capped at 258)
exactly when its length is at least 3 or the repeated index is 255,
emitting the escape triple `0xFF, (runLength - 3) mod 256, index`;
shorter runs of other indices are emitted as one literal byte per cell;
consequently a literal byte 255 never appears unescaped in the output
stream. -/
theorem claim_C3_rle_escape_structure (l : List Nat) (h : ∀ x ∈ l, x < 256) :
    rleEncode l = (specMaximalRuns l).flatMap specRunBytes
    ∧ (∀ p ∈ specMaximalRuns l, 1 ≤ p.2 ∧ p.2 ≤ 258)
    ∧ List.Chain' (fun p q : Nat × Nat => p.1 ≠ q.1 ∨ p.2 = 258) (specMaximalRuns l)
    ∧ noUnescaped255 (rleEncode l) = true :=
  ⟨rleEncode_eq_specRuns l,
   specMaximalRuns_bounds_aux l.length l (Nat.le_refl _),
   specMaximalRuns_maximal_aux l.length l (Nat.le_refl _),
   noUnescaped255_rleEncode_aux l.length l (Nat.le_refl _) h⟩

theorem claim_C3_witness :
    (∀ x ∈ [9, 9, 9, 9, 1, 255, 2, 2], x < 256)
    ∧ (rleEncode [9, 9, 9, 9, 1, 255, 2, 2]
        = (specMaximalRuns [9, 9, 9, 9, 1, 255, 2, 2]).flatMap specRunBytes
      ∧ (∀ p ∈ specMaximalRuns [9, 9, 9, 9, 1, 255, 2, 2], 1 ≤ p.2 ∧ p.2 ≤ 258)
      ∧ List.Chain' (fun p q : Nat × Nat => p.1 ≠ q.1 ∨ p.2 = 258)
          (specMaximalRuns [9, 9, 9, 9, 1, 255, 2, 2])
      ∧ noUnescaped255 (rleEncode [9, 9, 9, 9, 1, 255, 2, 2]) = true) :=
  ⟨by decide, claim_C3_rle_escape_structure [9, 9, 9, 9, 1, 255, 2, 2] (by decide)⟩

/-- C4: The pair palette contains exactly once each CellPair appearing
in any cell of any glyph line, plus the padding pair {0x20, 0x00}
exactly once if the font requires padding, and nothing else; it is
sorted by character code ascending then attribute ascending; and a font
whose palette would exceed 254 entries is dropped from the bundle while
the rest of the batch continues. -/
theorem claim_C4_palette_invariants (data : List (List (List CellPair))) (padFlag : Bool) :
    (∀ P, buildLocalPairPalette data padFlag = some P →
      ((∀ p, p ∈ P
          ↔ ((∃ gl ∈ data, ∃ line ∈ gl, p ∈ line) ∨ (padFlag = true ∧ p = padPair)))
        ∧ P.Nodup ∧ P.Pairwise pairLeP ∧ P.length ≤ 254))
    ∧ (254 < (sortPairs (uniquePairs data padFlag)).length →
        buildLocalPairPalette data padFlag = none)
    ∧ (∀ F : FontInput,
        buildLocalPairPalette (F.glyphs.map (fun cg => cg.2.lines))
            (fontRequiresPaddingFlag F) = none →
          processFont F = none)
    ∧ (∀ (fs1 fs2 : List FontInput) (F : FontInput), processFont F = none →
        processFonts (fs1 ++ F :: fs2) = processFonts fs1 ++ processFonts fs2) := by
  refine ⟨fun P h => buildLocalPairPalette_spec data padFlag P h, ?_, ?_,
    fun fs1 fs2 F h => processFonts_skip fs1 fs2 F h⟩
  · intro h
    unfold buildLocalPairPalette
    dsimp only
    rw [if_pos h]
  · intro F h
    unfold processFont
    split
    · rfl
    · rw [h]

theorem claim_C4_witness :
    buildLocalPairPalette [[[CellPair.mk 65 7]]] true
      = some [CellPair.mk 32 0, CellPair.mk 65 7]
    ∧ ((∀ p, p ∈ [CellPair.mk 32 0, CellPair.mk 65 7]
        ↔ ((∃ gl ∈ [[[CellPair.mk 65 7]]], ∃ line ∈ gl, p ∈ line)
            ∨ (true = true ∧ p = padPair)))
      ∧ ([CellPair.mk 32 0, CellPair.mk 65 7] : List CellPair).Nodup
      ∧ ([CellPair.mk 32 0, CellPair.mk 65 7] : List CellPair).Pairwise pairLeP
      ∧ ([CellPair.mk 32 0, CellPair.mk 65 7] : List CellPair).length ≤ 254) :=
  ⟨by decide,
    (claim_C4_palette_invariants [[[CellPair.mk 65 7]]] true).1
      [CellPair.mk 32 0, CellPair.mk 65 7] (by decide)⟩

/-- C5: Packing is deterministic: the bundle bytes are invariant under
any reordering of the processed fonts (their unique keys being pairwise
distinct), because fonts are sorted by uniqueKey before assembly; and
the palette builder is invariant under any reordering of the glyph data
it deduplicates, because the palette is canonically sorted. -/
theorem claim_C5_determinism :
    (∀ l1 l2 : List ProcessedFont, l1.Perm l2 →
        (l1.map (fun f => f.uniqueKey)).Nodup → buildBundle l1 = buildBundle l2)
    ∧ (∀ (d1 d2 : List (List (List CellPair))) (padFlag : Bool), d1.Perm d2 →
        buildLocalPairPalette d1 padFlag = buildLocalPairPalette d2 padFlag) :=
  ⟨buildBundle_perm, fun d1 d2 padFlag hp => buildLocalPairPalette_perm d1 d2 padFlag hp⟩

theorem claim_C5_witness :
    (([exRecB, exRecC] : List ProcessedFont).Perm [exRecC, exRecB]
      ∧ (([exRecB, exRecC] : List ProcessedFont).map (fun f => f.uniqueKey)).Nodup)
    ∧ buildBundle [exRecB, exRecC] = buildBundle [exRecC, exRecB] :=
  ⟨⟨by decide, by decide⟩,
    claim_C5_determinism.1 [exRecB, exRecC] [exRecC, exRecB] (by decide) (by decide)⟩

/-- C6: Decoding a stream shorter than needed for width × height cells
does not fail: it returns exactly width × height palette indices, the
decoded prefix followed by index 0 for every cell the stream did not
cover; the decoding loop never produces more cells than expected, and an
escape run that would overflow the expected count is truncated. -/
theorem claim_C6_robust_decode (bytes : List Nat) (expected : Nat) :
    (_decodeRLEStreamToPairIndices bytes expected).length = expected
    ∧ (rleDecodeAux bytes expected).length ≤ expected
    ∧ _decodeRLEStreamToPairIndices bytes expected
        = rleDecodeAux bytes expected
          ++ List.replicate (expected - (rleDecodeAux bytes expected).length) 0
    ∧ (∀ c v rest2 r, rleDecodeAux (255 :: c :: v :: rest2) (r + 1)
        = List.replicate (min (c + 3) (r + 1)) v
          ++ rleDecodeAux rest2 (r + 1 - (c + 3))) := by
  obtain ⟨h1, h2⟩ := decode_total_shape bytes expected
  exact ⟨h2, rleDecodeAux_length_le expected bytes, h1,
    fun c v rest2 r => rleDecodeAux_escape c v rest2 r⟩

/-- C7 as frozen is falsified by the code: the out-of-range fallback
cell `parseGlyphDataOnDemand` pushes is `(0x20, 0x07)` (space, light
grey on black — `cellData.push(0x20, 0x07)`), not the claimed attribute
`0x00`. -/
theorem claim_C7_counterexample :
    mapIndicesToCells [CellPair.mk 65 7] [1] = [CellPair.mk 0x20 0x07]
    ∧ mapIndicesToCells [CellPair.mk 65 7] [1] ≠ [CellPair.mk 0x20 0x00] := by
  decide

/-- C7 (amended): an out-of-range palette index maps to the default
cell {0x20, 0x07} (space on black background, light grey foreground)
without failing, while every in-range index is mapped through the
palette normally. -/
theorem claim_C7_amended (P : List CellPair) (idxs : List Nat) :
    (mapIndicesToCells P idxs).length = idxs.length
    ∧ ∀ k, k < idxs.length →
        (mapIndicesToCells P idxs).getD k padPair
          = if idxs.getD k 0 < P.length then P.getD (idxs.getD k 0) padPair
            else CellPair.mk 0x20 0x07 := by
  induction idxs with
  | nil =>
    exact ⟨rfl, fun k hk => absurd hk (by simp)⟩
  | cons i rest ih =>
    constructor
    · rw [show mapIndicesToCells P (i :: rest)
          = (if P.length ≤ i then CellPair.mk 0x20 0x07
             else P.getD i (CellPair.mk 0x20 0x07)) :: mapIndicesToCells P rest from rfl]
      simp [ih.1]
    · intro k hk
      cases k with
      | zero =>
        rw [show mapIndicesToCells P (i :: rest)
            = (if P.length ≤ i then CellPair.mk 0x20 0x07
               else P.getD i (CellPair.mk 0x20 0x07)) :: mapIndicesToCells P rest from rfl]
        simp only [List.getD_cons_zero]
        by_cases h : i < P.length
        · rw [if_neg (by omega), if_pos h]
          rw [List.getD_eq_getElem _ _ h, List.getD_eq_getElem _ _ h]
        · rw [if_pos (by omega), if_neg h]
      | succ k =>
        simp only [List.getD_cons_succ]
        exact ih.2 k (by simpa using hk)

theorem claim_C7_witness :
    (1 < ([0, 5] : List Nat).length)
    ∧ (mapIndicesToCells [CellPair.mk 65 7] [0, 5]).getD 1 padPair
        = if ([0, 5] : List Nat).getD 1 0 < ([CellPair.mk 65 7] : List CellPair).length
          then ([CellPair.mk 65 7] : List CellPair).getD (([0, 5] : List Nat).getD 1 0) padPair
          else CellPair.mk 0x20 0x07 :=
  ⟨by decide, (claim_C7_amended [CellPair.mk 65 7] [0, 5]).2 1 (by decide)⟩

/-- C8: Given a glyph lookup table sorted by character code (as the
writer produces it), the reader's binary search returns the stored
relative offset for every present character code, and absent for every
code not present — never another glyph's offset. -/
theorem claim_C8_binary_search (glt : List (Nat × Nat))
    (hsort : glt.Pairwise (fun a b => a.1 < b.1)) (c : Nat) :
    (∀ off, (c, off) ∈ glt → _findGlyphOffsetInLookupTable glt c = some off)
    ∧ ((∀ off, (c, off) ∉ glt) → _findGlyphOffsetInLookupTable glt c = none) := by
  have hsort2 : ∀ i j, i < j → j < glt.length →
      (glt.getD i (0, 0)).1 < (glt.getD j (0, 0)).1 := by
    intro i j hij hj
    have hi : i < glt.length := by omega
    rw [List.getD_eq_getElem _ _ hi, List.getD_eq_getElem _ _ hj]
    have := List.pairwise_iff_get.mp hsort ⟨i, hi⟩ ⟨j, hj⟩ hij
    simpa using this
  constructor
  · intro off hmem
    obtain ⟨n, hgn⟩ := List.mem_iff_get.mp hmem
    unfold _findGlyphOffsetInLookupTable
    refine findGo_some_aux glt c off hsort2 n.1 n.2 ?_ glt.length 0 glt.length
      (by omega) (Nat.le_refl _) (by omega) n.2
    rw [List.getD_eq_getElem _ _ n.2]
    simpa using hgn
  · intro hnot
    unfold _findGlyphOffsetInLookupTable
    refine findGo_none_aux glt c ?_ glt.length 0 glt.length (by omega) (Nat.le_refl _)
    intro p hp hpc
    apply hnot p.2
    have hpe : (c, p.2) = p := by
      rw [← hpc]
    rw [hpe]
    exact hp

theorem claim_C8_witness :
    ([(65, 0), (66, 7), (70, 9)] : List (Nat × Nat)).Pairwise (fun a b => a.1 < b.1)
    ∧ ((66, 7) ∈ ([(65, 0), (66, 7), (70, 9)] : List (Nat × Nat)))
    ∧ _findGlyphOffsetInLookupTable [(65, 0), (66, 7), (70, 9)] 66 = some 7
    ∧ _findGlyphOffsetInLookupTable [(65, 0), (66, 7), (70, 9)] 67 = none :=
  ⟨by decide, by decide,
    (claim_C8_binary_search [(65, 0), (66, 7), (70, 9)] (by decide) 66).1 7 (by decide),
    (claim_C8_binary_search [(65, 0), (66, 7), (70, 9)] (by decide) 67).2
      (by intro off h; simp at h)⟩

/-- C9 as frozen is falsified by the code: for a line consisting of one
undefined non-space character the claimed width (sum of per-character
widths plus `(n-1) × spacing` with `n` the count of width-occupying
characters) is 0, but `_calculateSingleLineLayout` floors every
non-empty line's width at one cell (8 px). -/
theorem claim_C9_counterexample :
    _calculateSingleLineLayout (fun c => if c = 65 then some (2, 1) else none) 0 [33] 3
      = (8, 16)
    ∧ claimLineWidth (fun c => if c = 65 then some (2, 1) else none) 0 [33] 3 = 0
    ∧ (_calculateSingleLineLayout (fun c => if c = 65 then some (2, 1) else none)
        0 [33] 3).1
      ≠ claimLineWidth (fun c => if c = 65 then some (2, 1) else none) 0 [33] 3 := by
  decide

/-- C9 (amended): a line's width is the sum of the per-character pixel
widths plus `(n - 1) × spacing`, where `n` counts the characters that
occupied any width or are spaces, the total floored at one cell (8 px)
when the line is non-empty; a space uses its own glyph metrics when the
font defines a space with positive width and otherwise the configurable
minimum space width; an undefined non-space character contributes zero
width; the line height is the maximum of the per-character heights
floored at one cell row.  In particular, for a font with spacing 1, a
glyph 'A' of width 2 and height 1, and no space glyph, measuring "A A"
with minSpaceWidth 3 yields 9 cells (72 px) by 1 cell row (16 px). -/
theorem claim_C9_amended :
    (∀ (metrics : Nat → Option (Nat × Nat)) (spacing : Nat) (line : List Nat)
        (minSpace : Nat),
      _calculateSingleLineLayout metrics spacing line minSpace
        = (amendedLineWidth metrics spacing line minSpace,
           max ((line.map
               (fun c => (_getCharLayoutMetrics metrics c minSpace).heightPx)).foldr
             max 0) CharHeight))
    ∧ calculateLayout (fun c => if c = 65 then some (2, 1) else none) 1 [65, 32, 65] 3 0
        = (72, 16) :=
  ⟨singleLineLayout_spec, by decide⟩

/-- C10: The measured height of a multi-line text equals the sum of the
per-line heights (each floored at one cell row) plus the configured
extra pixel gap once between consecutive lines; measuring an empty text
returns the minimum one-cell dimensions; and appending further
newline-separated lines strictly increases the measured height. -/
theorem claim_C10_multiline_height (metrics : Nat → Option (Nat × Nat))
    (spacing minSpace gap : Nat) :
    (∀ text, (calculateLayout metrics spacing text minSpace gap).2
        = specTotalHeight metrics spacing minSpace gap text)
    ∧ (∀ l, CharHeight ≤ (_calculateSingleLineLayout metrics spacing l minSpace).2)
    ∧ calculateLayout metrics spacing [] minSpace gap = (CharWidth, CharHeight)
    ∧ (∀ t s, (calculateLayout metrics spacing t minSpace gap).2 + CharHeight + gap
        ≤ (calculateLayout metrics spacing (t ++ 10 :: s) minSpace gap).2) := by
  refine ⟨fun text => calculateLayout_height metrics spacing text minSpace gap,
    fun l => singleLineLayout_height_ge metrics spacing l minSpace, rfl, ?_⟩
  intro t s
  rw [calculateLayout_height, calculateLayout_height, specTotalHeight_append]
  have := specTotalHeight_ge metrics spacing minSpace gap s
  omega

end Tdf

